import Mathlib

/-!
# Verification of the ocean-data mask / training-pair engine

Shallow embedding of the mask generation, mask application, training-pair
construction, dataset splitting, pair validation, quality-control spike
detection and CSV/JSON (de)serialization logic of the `kode` ocean tools
(`OceanMaskProcessTool`, `OceanTrainingDataTool`, `OceanDataPreprocessTool`,
`OceanBasicPreprocessTool`, `OceanQualityControlTool`).

Modelling conventions:
* JavaScript strings are modelled as `List Char` (named `Str`);
* JavaScript numbers are modelled as exact rationals `ℚ`, with `NaN` and the
  infinities as separate constructors of `JSValue`; rounding performed by
  `Number.prototype.toFixed` is modelled exactly over `ℚ`
  (round half away from the smaller `n`, per ECMA-262);
* a JavaScript object (a data row) is an association list `List (Str × JSValue)`
  in insertion order; property reads of an absent key give `undefVal`;
  property writes update in place or append, as in JS;
* `Math.random`-based shuffling is abstracted as an explicit
  length-preserving oracle function passed to `splitDataset`.
-/

/-- JavaScript strings, modelled as lists of characters. -/
abbrev Str := List Char

/-- A JavaScript value as it occurs in a parsed ocean-data row:
a (finite) number, `NaN`, `±Infinity`, a string, `null`, or `undefined`. -/
inductive JSValue : Type
  | num (q : ℚ)
  | nan
  | inf (pos : Bool)
  | str (s : Str)
  | null
  | undefVal
deriving DecidableEq

instance : Inhabited JSValue := ⟨JSValue.undefVal⟩

/-- `isMissing` from `@utils/oceanData` (also inlined in
`OceanDataPreprocessTool.generateMasks`):
`val === null || val === undefined || val === '' ||
 (typeof val === 'number' && isNaN(val))`. -/
def isMissing : JSValue → Bool
  | .null => true
  | .undefVal => true
  | .str [] => true
  | .str (_ :: _) => false
  | .num _ => false
  | .nan => true
  | .inf _ => false

/-- A data row: a JavaScript object, i.e. an association list of
(field name, value) in property-insertion order. -/
abbrev Row := List (Str × JSValue)

/-- `row[key]`: property read; an absent key reads as `undefined`. -/
def rowGet (r : Row) (k : Str) : JSValue :=
  match r.find? (fun p => decide (p.1 = k)) with
  | some p => p.2
  | none => .undefVal

/-- `Object.keys(row)`: the field names in insertion order. -/
def rowKeys (r : Row) : List Str := r.map Prod.fst

/-- `row[key] = v`: property write; updates an existing key in place,
otherwise appends the new key at the end, as JavaScript objects do. -/
def setKey (r : Row) (k : Str) (v : JSValue) : Row :=
  if r.any (fun p => decide (p.1 = k)) then
    r.map (fun p => if p.1 = k then (k, v) else p)
  else r ++ [(k, v)]

/-- A JavaScript number result that may be `NaN` (used where a computation
can produce `NaN`, e.g. `0 / 0`). -/
inductive JSNum : Type
  | num (q : ℚ)
  | nan
deriving DecidableEq

/-- Rounding to the nearest integer, ties toward the larger integer —
the tie-breaking rule of `Number.prototype.toFixed` (ECMA-262 picks the
larger `n` when two are equally near). -/
def roundHalfUp (x : ℚ) : ℤ := ⌊x + 1/2⌋

/-- The integer `n` such that `x.toFixed(d)` prints `n / 10^d`:
ECMA-262 takes the absolute value first and restores the sign. -/
def jsToFixedInt (d : ℕ) (q : ℚ) : ℤ :=
  if q < 0 then -roundHalfUp (-q * 10 ^ d) else roundHalfUp (q * 10 ^ d)

/-- The numeric value of `Number(q.toFixed(d))` (as in
`Number(missingRatio.toFixed(4))`), modelled exactly over `ℚ`. -/
def toFixedRat (d : ℕ) (q : ℚ) : ℚ := (jsToFixedInt d q : ℚ) / 10 ^ d

-- Basic lemmas about row access.

theorem rowGet_setKey_self (r : Row) (k : Str) (v : JSValue) :
    rowGet (setKey r k v) k = v := by
  unfold setKey
  split
  · rename_i h
    rw [List.any_eq_true] at h
    obtain ⟨p, hp, hpk⟩ := h
    rw [decide_eq_true_eq] at hpk
    unfold rowGet
    induction r with
    | nil => simp at hp
    | cons a t ih =>
      simp only [List.map_cons, List.find?]
      by_cases ha : a.1 = k
      · simp [ha]
      · simp only [if_neg ha]
        have : ¬ (a.1 = k) := ha
        simp only [decide_eq_false this, List.find?]
        rcases List.mem_cons.mp hp with h1 | h2
        · exact absurd (h1 ▸ hpk) ha
        · exact ih h2
  · unfold rowGet
    induction r with
    | nil => simp [List.find?]
    | cons a t ih =>
      rename_i h
      simp only [List.any_cons, Bool.or_eq_true, decide_eq_true_eq] at h
      push_neg at h
      obtain ⟨h1, h2⟩ := h
      simp only [List.cons_append, List.find?, decide_eq_false h1]
      exact ih (by simpa using h2)

theorem find?_setKey_map_ne (r : Row) (k k' : Str) (v : JSValue) (h : k' ≠ k) :
    (r.map (fun p => if p.1 = k then (k, v) else p)).find?
        (fun p => decide (p.1 = k')) =
      r.find? (fun p => decide (p.1 = k')) := by
  induction r with
  | nil => rfl
  | cons a t ih =>
    simp only [List.map_cons, List.find?]
    by_cases ha : a.1 = k
    · have h1 : ¬ ((k, v).1 = k') := fun hc => h hc.symm
      have h2 : ¬ (a.1 = k') := by rw [ha]; exact fun hc => h hc.symm
      simp only [if_pos ha, decide_eq_false h1, decide_eq_false h2]
      exact ih
    · simp only [if_neg ha]
      by_cases hk' : a.1 = k'
      · simp [hk']
      · simp only [decide_eq_false hk']
        exact ih

theorem rowGet_setKey_ne (r : Row) (k k' : Str) (v : JSValue) (h : k' ≠ k) :
    rowGet (setKey r k v) k' = rowGet r k' := by
  unfold setKey
  split
  · unfold rowGet
    rw [find?_setKey_map_ne r k k' v h]
  · unfold rowGet
    rw [List.find?_append]
    cases hf : r.find? (fun p => decide (p.1 = k')) with
    | some p => simp
    | none =>
      simp only [Option.none_or]
      have : ¬ ((k, v).1 = k') := fun hc => h hc.symm
      simp [List.find?, decide_eq_false this]

theorem rowKeys_setKey_mem (r : Row) (k : Str) (v : JSValue)
    (h : k ∈ rowKeys r) : rowKeys (setKey r k v) = rowKeys r := by
  unfold setKey
  have hany : r.any (fun p => decide (p.1 = k)) = true := by
    rw [List.any_eq_true]
    unfold rowKeys at h
    obtain ⟨p, hp, hpk⟩ := List.mem_map.mp h
    exact ⟨p, hp, by simp [hpk]⟩
  rw [if_pos hany]
  unfold rowKeys
  rw [List.map_map]
  apply List.map_congr_left
  intro p _
  by_cases hp : p.1 = k
  · simp [hp]
  · simp [hp]

/-! ## Mask generation (`generateMasks` of `OceanMaskProcessTool` /
`OceanDataPreprocessTool`) -/

/-- Reading a boolean map (a JS object of booleans) at a key: an absent key
reads as `undefined`, which is falsy. -/
def lookupBool (m : List (Str × Bool)) (k : Str) : Bool :=
  match m.find? (fun p => decide (p.1 = k)) with
  | some p => p.2
  | none => false

/-- One element of `cloudMasks`: `{ index, missingRatio, mask }`.
(The stored ratio field is named `missFrac` here; the source calls it
`missingRatio`.) -/
structure CloudMask where
  index : ℕ
  missFrac : ℚ
  mask : List (Str × Bool)
deriving DecidableEq

instance : Inhabited CloudMask := ⟨⟨0, 0, []⟩⟩

/-- `{ landMask, cloudMasks }` as persisted to the mask file. -/
structure MaskSet where
  landMask : List (Str × Bool)
  cloudMasks : List CloudMask
deriving DecidableEq

/-- `mask_params`: `{ missing_ratio_range, mask_count }` (field names
shortened to `missFracRange` / `maskCount`). -/
structure MaskParams where
  missFracRange : Option (ℚ × ℚ)
  maskCount : Option ℚ

/-- `params?.missing_ratio_range || [0.1, 0.6]` (an array is always truthy,
so only an absent parameter falls back). -/
def missFracRangeOf (p : MaskParams) : ℚ × ℚ :=
  p.missFracRange.getD (1/10, 6/10)

/-- `params?.mask_count || 360`: absent or zero (falsy) falls back to 360. -/
def maskCountOf (p : MaskParams) : ℚ :=
  match p.maskCount with
  | none => 360
  | some q => if q = 0 then 360 else q

/-- The land-mask pass: `keys.forEach(key => landMask[key] =
data.every(row => isMissing(row[key])))`. -/
def computeLandMask (data : List Row) (keys : List Str) : List (Str × Bool) :=
  keys.map (fun k => (k, data.all (fun row => isMissing (rowGet row k))))

/-- The per-row missing fraction over sea (non-land) fields:
`seaKeys.filter(key => isMissing(row[key])).length / seaKeys.length`. -/
def exactMissFrac (seaKeys : List Str) (row : Row) : ℚ :=
  ((seaKeys.filter (fun k => isMissing (rowGet row k))).length : ℚ) /
    (seaKeys.length : ℚ)

/-- The per-row full missing map: `keys.forEach(key => mask[key] =
isMissing(row[key]))`. -/
def rowMissMap (keys : List Str) (row : Row) : List (Str × Bool) :=
  keys.map (fun k => (k, isMissing (rowGet row k)))

/-- One iteration of the cloud-mask loop
`for (let i = 0; i < data.length && cloudMasks.length < maskCount; i++)`.
The loop's early exit is modelled by the (monotone) length guard inside the
fold: once the count reaches `maskCount`, every later step is a no-op. -/
def cloudMaskStep (keys seaKeys : List Str) (maskCount lo hi : ℚ)
    (acc : List CloudMask) (ir : ℕ × Row) : List CloudMask :=
  if (acc.length : ℚ) < maskCount then
    let frac := exactMissFrac seaKeys ir.2
    if lo ≤ frac ∧ frac ≤ hi then
      acc ++ [⟨ir.1, toFixedRat 4 frac, rowMissMap keys ir.2⟩]
    else acc
  else acc

/-- The land mask of a table: `computeLandMask` over `Object.keys` of the
first row. -/
def landMaskOf (data : List Row) : List (Str × Bool) :=
  computeLandMask data (rowKeys (data.headD []))

/-- The sea (non-land) keys: `keys.filter(key => !landMask[key])`. -/
def seaKeysOf (data : List Row) : List Str :=
  (rowKeys (data.headD [])).filter (fun k => !(lookupBool (landMaskOf data) k))

/-- All the data the cloud-mask loop reads from a row: its index, its
missing fraction over the sea keys, and its full per-field missing map. -/
def missProfile (keys seaKeys : List Str) (ir : ℕ × Row) :
    ℕ × ℚ × List (Str × Bool) :=
  (ir.1, exactMissFrac seaKeys ir.2, rowMissMap keys ir.2)

/-- `cloudMaskStep` expressed on a row's `missProfile`. -/
def cloudMaskStepP (maskCount lo hi : ℚ) (acc : List CloudMask)
    (ip : ℕ × ℚ × List (Str × Bool)) : List CloudMask :=
  if (acc.length : ℚ) < maskCount then
    if lo ≤ ip.2.1 ∧ ip.2.1 ≤ hi then
      acc ++ [⟨ip.1, toFixedRat 4 ip.2.1, ip.2.2⟩]
    else acc
  else acc

/-- The maximum number of cloud masks the loop can emit: the loop guard is
`cloudMasks.length < maskCount` over the rational `maskCount`. -/
def cloudCap (maskCount : ℚ) : ℕ := (⌈maskCount⌉).toNat

/-- Result of `generateMasks`: the `MaskSet` and the warnings list.
(The numeric `report` object is elided; every claim concerns `masks` and
`warnings`.) -/
structure MaskGenResult where
  masks : MaskSet
  warnings : List String

/-- `generateMasks(data, params)` from `OceanMaskProcessTool` (the
`OceanDataPreprocessTool` copy inlines `isMissing` but is otherwise the same
algorithm; its non-array guard is `generateMasksAny` below). -/
def generateMasks (data : List Row) (p : MaskParams) : MaskGenResult :=
  if data = [] then
    ⟨⟨[], []⟩, ["Data format not suitable for mask generation"]⟩
  else
    let range := missFracRangeOf p
    let lo := range.1
    let hi := range.2
    let maskCount := maskCountOf p
    let keys := rowKeys (data.headD [])
    let landMask := landMaskOf data
    let landPixelCount := (landMask.filter (fun kv => kv.2)).length
    let w1 := s!"Generated land mask: {landPixelCount} land pixels identified"
    let seaKeys := seaKeysOf data
    if seaKeys = [] then
      ⟨⟨landMask, []⟩,
        [w1, "No valid sea pixels found for cloud mask generation"]⟩
    else
      let cloudMasks :=
        data.enum.foldl (cloudMaskStep keys seaKeys maskCount lo hi) []
      let n := cloudMasks.length
      ⟨⟨landMask, cloudMasks⟩,
        [w1, s!"Generated {n} cloud masks with missing ratio in [{lo}, {hi}]"]⟩

/-- The `OceanDataPreprocessTool` entry guard
`if (!Array.isArray(data) || data.length === 0)`:
`none` models a non-array input. -/
def generateMasksAny (input : Option (List Row)) (p : MaskParams) :
    MaskGenResult :=
  match input with
  | none =>
      ⟨⟨[], []⟩,
        ["Data format not suitable for mask generation. Expected array of observations."]⟩
  | some data => generateMasks data p

/-! ## Mask application (`applyMasksToData` of `OceanMaskProcessTool`) -/

/-- The inner loop of `applyMasksToData`:
`Object.keys(mask).forEach(key => { if (mask[key]) newRow[key] = null })`
applied to `newRow = { ...row }`. -/
def applyCloudMask (mask : List (Str × Bool)) (row : Row) : Row :=
  mask.foldl (fun r kb => if kb.2 then setKey r kb.1 .null else r) row

/-- Result of `applyMasksToData`. -/
structure ApplyResult where
  data : List Row
  masksApplied : ℕ
  warnings : List String

/-- `applyMasksToData(data, masks)` from `OceanMaskProcessTool`:
rows with an index below `cloudMasks.length` get their cloud mask's flagged
fields set to `null` on a fresh copy; later rows are returned unchanged.
Note that `landMask` is never consulted here. -/
def applyMasksToData (data : List Row) (masks : MaskSet) : ApplyResult :=
  if masks.cloudMasks = [] then
    ⟨data, 0, ["No cloud masks found to apply"]⟩
  else
    let maskedData := data.enum.map (fun ir =>
      match masks.cloudMasks[ir.1]? with
      | some cm => applyCloudMask cm.mask ir.2
      | none => ir.2)
    let n := min masks.cloudMasks.length data.length
    ⟨maskedData, n, [s!"Applied {n} cloud masks to data"]⟩

/-! ## Training pairs (`buildTrainingPairs` of `OceanTrainingDataTool`) -/

/-- A `{ input, groundTruth, maskIndex, missingRatio }` training pair
(the stored ratio field is named `missFrac` here). -/
structure TrainingPair where
  input : Row
  groundTruth : Row
  maskIndex : ℕ
  missFrac : ℚ
deriving DecidableEq

instance : Inhabited TrainingPair := ⟨⟨[], [], 0, 0⟩⟩

/-- Building the masked input row of a pair:
`Object.keys(gtRow).forEach(key => inputRow[key] =
  (cloudMask[key] || (landMask && landMask[key])) ? null : gtRow[key])`
starting from the empty object. -/
def maskedInputRow (gtRow : Row) (cloudMask landMask : List (Str × Bool)) :
    Row :=
  (rowKeys gtRow).foldl (fun acc k =>
    setKey acc k
      (if lookupBool cloudMask k || lookupBool landMask k then .null
       else rowGet gtRow k)) []

/-- Result of `buildTrainingPairs`. -/
structure PairsResult where
  pairs : List TrainingPair
  warnings : List String

/-- `buildTrainingPairs(groundTruth, masks)` from `OceanTrainingDataTool`:
one pair per index `i < min(cloudMasks.length, groundTruth.length)`, the
input row masking every field flagged by the cloud mask OR the land mask. -/
def buildTrainingPairs (groundTruth : List Row) (masks : MaskSet) :
    PairsResult :=
  if masks.cloudMasks = [] then
    ⟨[], ["No cloud masks available for pair generation"]⟩
  else
    let n := min masks.cloudMasks.length groundTruth.length
    let pairs := (List.range n).map (fun i =>
      let gtRow := groundTruth.getD i []
      let cm := masks.cloudMasks.getD i default
      ⟨maskedInputRow gtRow cm.mask masks.landMask, gtRow, i, cm.missFrac⟩)
    ⟨pairs, [s!"Built {pairs.length} training pairs (input/ground_truth)"]⟩

/-! ## Dataset splitting (`splitDataset` of `OceanTrainingDataTool`) -/

/-- `split_params` (ratio field names shortened to `trainFrac` etc.). -/
structure SplitParams where
  trainFrac : Option ℚ
  valFrac : Option ℚ
  testFrac : Option ℚ
  shuffle : Option Bool

/-- `params?.x || default`: absent or zero (falsy) falls back. -/
def fracOrDefault (o : Option ℚ) (d : ℚ) : ℚ :=
  match o with
  | none => d
  | some q => if q = 0 then d else q

/-- `Array.prototype.slice` index normalization: a negative index counts
from the end, and indices clamp to `[0, len]`. -/
def jsNormIndex (len : ℕ) (i : ℤ) : ℕ :=
  if i < 0 then ((len : ℤ) + i).toNat else min i.toNat len

/-- `l.slice(s, e)` (JavaScript semantics). -/
def jsSlice {α : Type} (l : List α) (s e : ℤ) : List α :=
  let a := jsNormIndex l.length s
  let b := jsNormIndex l.length e
  (l.drop a).take (b - a)

/-- `l.slice(s)` (JavaScript semantics, one-argument form). -/
def jsSliceFrom {α : Type} (l : List α) (s : ℤ) : List α :=
  l.drop (jsNormIndex l.length s)

/-- Result of `splitDataset` (the `splitInfo` counts are the lengths of the
three lists). -/
structure SplitResult (α : Type) where
  train : List α
  val : List α
  test : List α
  warnings : List String

/-- `splitDataset(pairs, params)` from `OceanTrainingDataTool`.
The `Math.random()`-driven Fisher–Yates shuffle is abstracted as the
explicit oracle `shuffleOracle` (the in-place swap loop is length-preserving
for every random draw); with `shuffle === false` it is not applied. -/
def splitDataset {α : Type} (pairs : List α) (params : SplitParams)
    (shuffleOracle : List α → List α) : SplitResult α :=
  let trainFrac := fracOrDefault params.trainFrac (7/10)
  let valFrac := fracOrDefault params.valFrac (3/20)
  let testFrac := fracOrDefault params.testFrac (3/20)
  let doShuffle : Bool := params.shuffle != some false
  let ratioWarn : List String :=
    if 1/1000 < |trainFrac + valFrac + testFrac - 1| then
      ["Warning: Split ratios do not sum to 1.0, adjusting to 1.0"]
    else []
  let shuffleWarn : List String :=
    if doShuffle then ["Shuffled dataset before splitting"] else []
  let data := if doShuffle then shuffleOracle pairs else pairs
  let totalSamples := data.length
  let trainSize : ℤ := ⌊(totalSamples : ℚ) * trainFrac⌋
  let valSize : ℤ := ⌊(totalSamples : ℚ) * valFrac⌋
  let train := jsSlice data 0 trainSize
  let val := jsSlice data trainSize (trainSize + valSize)
  let test := jsSliceFrom data (trainSize + valSize)
  ⟨train, val, test,
    ratioWarn ++ shuffleWarn ++
      [s!"Split dataset: {train.length} train, {val.length} val, {test.length} test"]⟩

/-! ## Pair validation (`validatePairs` of `OceanTrainingDataTool`) -/

/-- The per-pair masked-value test after the key-count guard:
`input[key] === null && groundTruth[key] !== null` for some key of `input`
(an absent `groundTruth` key reads as `undefined`, which is `!== null`). -/
def hasMaskedValues (p : TrainingPair) : Bool :=
  (rowKeys p.input).any (fun k =>
    decide (rowGet p.input k = .null) && !(decide (rowGet p.groundTruth k = .null)))

/-- The complete per-pair test `validatePairs` counts as valid:
equal key COUNTS (not key sets) plus a masked value. -/
def codePairValid (p : TrainingPair) : Bool :=
  decide ((rowKeys p.input).length = (rowKeys p.groundTruth).length) &&
    hasMaskedValues p

/-- The validation report `{ totalPairs, validPairs, invalidPairs,
validPercentage }`; the percentage is a JS number and can be `NaN`. -/
structure ValidationReport where
  totalPairs : ℕ
  validPairs : ℕ
  invalidPairs : ℕ
  validPercentage : JSNum
deriving DecidableEq

/-- The `pairs.forEach` counting loop of `validatePairs`, accumulating
`(validPairs, invalidPairs, warnings)`. -/
def validateStep (acc : ℕ × ℕ × List String) (ip : ℕ × TrainingPair) :
    ℕ × ℕ × List String :=
  let idx := ip.1
  let p := ip.2
  if (rowKeys p.input).length ≠ (rowKeys p.groundTruth).length then
    (acc.1, acc.2.1 + 1, acc.2.2 ++ [s!"Pair {idx}: Key count mismatch"])
  else if hasMaskedValues p then
    (acc.1 + 1, acc.2.1, acc.2.2)
  else
    (acc.1, acc.2.1 + 1, acc.2.2 ++ [s!"Pair {idx}: No masked values found"])

/-- `validatePairs(pairs)` from `OceanTrainingDataTool`:
`validPercentage = Number(((validPairs / pairs.length) * 100).toFixed(2))`,
which is `NaN` on an empty pair list (`0 / 0`). -/
def validatePairs (pairs : List TrainingPair) :
    ValidationReport × List String :=
  let acc := pairs.enum.foldl validateStep (0, 0, [])
  let validPairs := acc.1
  let invalidPairs := acc.2.1
  let pct : JSNum :=
    if pairs.length = 0 then .nan
    else .num (toFixedRat 2 ((validPairs : ℚ) / (pairs.length : ℚ) * 100))
  (⟨pairs.length, validPairs, invalidPairs, pct⟩,
    acc.2.2 ++
      [s!"Validated {pairs.length} pairs: {validPairs} valid, {invalidPairs} invalid"])

/-! ## Spike detection (`performQualityControl` of `OceanQualityControlTool`) -/

/-- The designated temperature key: the source computes
`const tempKey = 'temperature' || 'Temperature' || 'temp'`, which is always
`'temperature'`. -/
def tempKey : Str := "temperature".toList

/-- The 3-point spike test on finite neighbour values.  The source computes
`stdWindow = Math.sqrt(((prev-avg)^2 + (next-avg)^2) / 2)` and flags iff
`stdWindow > 0 && |curr-avg| > threshold * stdWindow`; since
`√x > 0 ↔ x > 0` and both sides of the second comparison are nonnegative
when `threshold ≥ 0`, the test is expressed square-free below
(`spikeCond_eq_sqrt_form` proves the equivalence with the `Real.sqrt` form). -/
def spikeCond (prev curr next threshold : ℚ) : Bool :=
  let avgNeighbor := (prev + next) / 2
  let diff := |curr - avgNeighbor|
  let s2 := ((prev - avgNeighbor) ^ 2 + (next - avgNeighbor) ^ 2) / 2
  decide (0 < s2) &&
    (if 0 ≤ threshold then decide (threshold ^ 2 * s2 < diff ^ 2) else true)

/-- The spike pass of `performQualityControl`: for each interior index
`i ∈ [1, length-2]`, flag iff the three `temperature` values are numbers
satisfying the 3-point test.  (`NaN` temperatures pass the JS
`typeof === 'number'` check but propagate to `stdWindow = NaN`, failing
`stdWindow > 0`; they are therefore folded into the unflagged branch.) -/
def spikeFlags (data : List Row) (threshold : ℚ) : List Bool :=
  data.enum.map (fun ir =>
    if 1 ≤ ir.1 ∧ ir.1 + 1 < data.length then
      match rowGet (data.getD (ir.1 - 1) []) tempKey,
            rowGet ir.2 tempKey,
            rowGet (data.getD (ir.1 + 1) []) tempKey with
      | .num prev, .num curr, .num next => spikeCond prev curr next threshold
      | _, _, _ => false
    else false)

/-- `params.spike_threshold || 3`. -/
def spikeThresholdOf (o : Option ℚ) : ℚ :=
  match o with
  | none => 3
  | some q => if q = 0 then 3 else q

/-- Auxiliary: the square-free comparison against a nonnegative bound agrees
with the square-root form. -/
theorem sqrt_form_aux (s2 d th : ℚ) (hth : 0 ≤ th) (hd : 0 ≤ d) :
    (decide (0 < s2) && decide (th ^ 2 * s2 < d ^ 2)) =
      (decide ((0 : ℝ) < Real.sqrt (s2 : ℝ)) &&
        decide ((th : ℝ) * Real.sqrt (s2 : ℝ) < (d : ℝ))) := by
  by_cases hpos : 0 < s2
  · have hposR : (0 : ℝ) < (s2 : ℝ) := by exact_mod_cast hpos
    have hsqrtpos : 0 < Real.sqrt (s2 : ℝ) := Real.sqrt_pos.mpr hposR
    have hsq : Real.sqrt (s2 : ℝ) * Real.sqrt (s2 : ℝ) = (s2 : ℝ) :=
      Real.mul_self_sqrt hposR.le
    have hiff : (th ^ 2 * s2 < d ^ 2) ↔
        ((th : ℝ) * Real.sqrt (s2 : ℝ) < (d : ℝ)) := by
      have hb : (0 : ℝ) ≤ (th : ℝ) * Real.sqrt (s2 : ℝ) :=
        mul_nonneg (by exact_mod_cast hth) (Real.sqrt_nonneg _)
      have hdR : (0 : ℝ) ≤ (d : ℝ) := by exact_mod_cast hd
      rw [mul_self_lt_mul_self_iff hb hdR]
      have : (th : ℝ) * Real.sqrt (s2 : ℝ) * ((th : ℝ) * Real.sqrt (s2 : ℝ))
          = (th : ℝ) ^ 2 * (s2 : ℝ) := by
        rw [mul_mul_mul_comm, hsq]; ring
      rw [this]
      rw [show ((d : ℝ) * (d : ℝ)) = (d : ℝ) ^ 2 by ring]
      constructor
      · intro h; exact_mod_cast h
      · intro h; exact_mod_cast h
    rw [decide_eq_true hpos, decide_eq_true hsqrtpos,
      decide_eq_decide.mpr hiff]
  · have hnotR : ¬ ((0 : ℝ) < Real.sqrt (s2 : ℝ)) := by
      rw [Real.sqrt_pos]
      intro hc
      exact hpos (by exact_mod_cast hc)
    rw [decide_eq_false hpos, decide_eq_false hnotR]
    simp

/-- Justification for the square-free form of `spikeCond`: it agrees with
the source formula written with a real square root (JS numbers are modelled
as reals here), for any nonnegative threshold. -/
theorem spikeCond_eq_sqrt_form (prev curr next threshold : ℚ)
    (hth : 0 ≤ threshold) :
    spikeCond prev curr next threshold =
      (let avgNeighbor : ℝ := ((prev : ℝ) + (next : ℝ)) / 2
       let diff : ℝ := |(curr : ℝ) - avgNeighbor|
       let s2 : ℝ := (((prev : ℝ) - avgNeighbor) ^ 2 +
         ((next : ℝ) - avgNeighbor) ^ 2) / 2
       let stdWindow := Real.sqrt s2
       decide (0 < stdWindow) && decide ((threshold : ℝ) * stdWindow < diff)) := by
  show spikeCond prev curr next threshold =
      (decide ((0 : ℝ) < Real.sqrt ((((prev : ℝ) - ((prev : ℝ) + (next : ℝ)) / 2) ^ 2 +
          ((next : ℝ) - ((prev : ℝ) + (next : ℝ)) / 2) ^ 2) / 2)) &&
        decide ((threshold : ℝ) * Real.sqrt ((((prev : ℝ) - ((prev : ℝ) + (next : ℝ)) / 2) ^ 2 +
          ((next : ℝ) - ((prev : ℝ) + (next : ℝ)) / 2) ^ 2) / 2) <
          |(curr : ℝ) - ((prev : ℝ) + (next : ℝ)) / 2|))
  have hs2cast :
      ((((prev - (prev + next) / 2) ^ 2 + (next - (prev + next) / 2) ^ 2) / 2 : ℚ) : ℝ)
        = (((prev : ℝ) - ((prev : ℝ) + (next : ℝ)) / 2) ^ 2 +
            ((next : ℝ) - ((prev : ℝ) + (next : ℝ)) / 2) ^ 2) / 2 := by
    push_cast; ring
  have hdcast : ((|curr - (prev + next) / 2| : ℚ) : ℝ)
      = |(curr : ℝ) - ((prev : ℝ) + (next : ℝ)) / 2| := by
    push_cast; rfl
  rw [← hs2cast, ← hdcast]
  unfold spikeCond
  simp only [if_pos hth]
  exact sqrt_form_aux _ _ _ hth (abs_nonneg _)

/-- The effective train ratio: `params?.train_ratio || 0.7`. -/
def effTrainFrac (params : SplitParams) : ℚ := fracOrDefault params.trainFrac (7/10)

/-- The effective validation ratio: `params?.val_ratio || 0.15`. -/
def effValFrac (params : SplitParams) : ℚ := fracOrDefault params.valFrac (3/20)

/-- Setting field `f` of row `i` of a table to `v` (the "mutation" used by
the property claims about land fields), all other rows unchanged. -/
def tableSet (data : List Row) (i : ℕ) (f : Str) (v : JSValue) : List Row :=
  data.enum.map (fun jr => if jr.1 = i then setKey jr.2 f v else jr.2)

/-! ## CSV and JSON (de)serialization (`parseCSV`, `serializeData`,
`parseDataFile` of `OceanDataPreprocessTool` / `@utils/oceanData`) -/

/-- JavaScript whitespace characters relevant to `String.prototype.trim`
(the ASCII ones plus NBSP; other exotic Unicode spaces do not occur in this
data model). -/
def isJsWs (c : Char) : Bool :=
  decide (c = ' ') || decide (c = '\t') || decide (c = '\n') ||
    decide (c = '\r') || decide (c.toNat = 11) || decide (c.toNat = 12) ||
    decide (c.toNat = 160)

/-- `s.trim()`. -/
def jsTrim (s : Str) : Str :=
  ((s.dropWhile isJsWs).reverse.dropWhile isJsWs).reverse

/-- Digit test used by the `parseFloat` model (`'0' ≤ c ≤ '9'`). -/
def isDigitChar (c : Char) : Bool := decide (48 ≤ c.toNat ∧ c.toNat ≤ 57)

/-- The numeric value of a digit character. -/
def digitVal (c : Char) : ℕ := c.toNat - 48

/-- The character of a digit value. -/
def digitChar (d : ℕ) : Char := Char.ofNat (48 + d)

/-- Split a leading run of digits off a string. -/
def takeDigits : Str → List ℕ × Str
  | [] => ([], [])
  | c :: rest =>
    if isDigitChar c then
      let p := takeDigits rest
      (digitVal c :: p.1, p.2)
    else ([], c :: rest)

/-- The value of a most-significant-first digit list. -/
def digitsToNat (ds : List ℕ) : ℕ := ds.foldl (fun a d => a * 10 + d) 0

/-- The value of a fraction-digit list (most significant first). -/
def fracVal (ds : List ℕ) : ℚ := ds.foldr (fun (d : ℕ) (a : ℚ) => ((d : ℚ) + a) / 10) 0

/-- The optional leading sign read by `parseFloat`, with the sign factor. -/
def splitSign : Str → ℚ × Str
  | '-' :: r => (-1, r)
  | '+' :: r => (1, r)
  | r => (1, r)

/-- The model of `parseFloat`: optional sign, then decimal digits with an
optional fraction part; `none` models a `NaN` result.  (`parseFloat` also
accepts exponent notation and `Infinity`; exponents do not occur in this
pipeline's output and `Infinity` is handled by `hasInfinityPrefix`.) -/
def jsParseFloat (s : Str) : Option ℚ :=
  let sp : ℚ × Str := splitSign s
  let ip := takeDigits sp.2
  match ip.2 with
  | '.' :: r =>
    let fp := takeDigits r
    if ip.1 = [] ∧ fp.1 = [] then none
    else some (sp.1 * ((digitsToNat ip.1 : ℚ) + fracVal fp.1))
  | _ => if ip.1 = [] then none else some (sp.1 * (digitsToNat ip.1 : ℚ))

/-- Whether `parseFloat` would read an `Infinity` literal here (after an
optional sign). -/
def hasInfinityPrefix (s : Str) : Bool :=
  let r :=
    match s with
    | '-' :: r => r
    | '+' :: r => r
    | r => r
  "Infinity".toList.isPrefixOf r

/-- `const numValue = parseFloat(value);
row[header] = isNaN(numValue) ? value : numValue`. -/
def jsParseFloatVal (v : Str) : JSValue :=
  if hasInfinityPrefix v then
    .inf (match v with | '-' :: _ => false | _ => true)
  else
    match jsParseFloat v with
    | some q => .num q
    | none => .str v

/-- Decimal digit characters of `n`, most significant first. -/
def renderNat (n : ℕ) : Str :=
  if n = 0 then ['0'] else ((Nat.digits 10 n).reverse).map digitChar

/-- The digit values of `n` padded with leading zeros to width `d`
(most significant first; faithful for `n < 10^d`). -/
def padDigits (d n : ℕ) : List ℕ :=
  (Nat.digits 10 n ++ List.replicate (d - (Nat.digits 10 n).length) 0).reverse

/-- `n` rendered with exactly `d` digits (leading zeros). -/
def renderNatPad (d n : ℕ) : Str := (padDigits d n).map digitChar

/-- `q.toFixed(d)` as a string (plain decimal notation; ECMA-262 switches
to exponent form only for `|q| ≥ 10^21`, which the round-trip domain
excludes). -/
def jsToFixedStr (d : ℕ) (q : ℚ) : Str :=
  let n := jsToFixedInt d q
  (if n < 0 then ['-'] else []) ++ renderNat (n.natAbs / 10 ^ d) ++
    (if d = 0 then [] else '.' :: renderNatPad d (n.natAbs % 10 ^ d))

/-- CSV cell rendering in `serializeData`:
`null`/`undefined`/`NaN` print as the empty string, numbers as
`val.toFixed(4)`, anything else as `String(val)`. -/
def renderCSVValue : JSValue → Str
  | .null => []
  | .undefVal => []
  | .nan => []
  | .num q => jsToFixedStr 4 q
  | .inf pos => if pos then "Infinity".toList else "-Infinity".toList
  | .str s => s

/-- `MAX_DATA_ROWS`. -/
def MAX_DATA_ROWS : ℕ := 100000

/-- The CSV branch of `serializeData`: header line from the first row's
keys, then one line per row, cells joined with commas, lines with
newlines; the empty table serializes to the empty string. -/
def serializeCSV (data : List Row) : Str :=
  if data = [] then []
  else
    let headers := rowKeys (data.headD [])
    let lines := List.intercalate [','] headers ::
      data.map (fun row =>
        List.intercalate [','] (headers.map (fun h =>
          renderCSVValue (rowGet row h))))
    List.intercalate ['\n'] lines

/-- `parseCSV`: trim the content, split into lines, read the header line,
then parse at most `MAX_DATA_ROWS` data lines; each cell is trimmed and
parsed with `parseFloat`, keeping the string when that yields `NaN`; a
missing cell (`values[idx]` past the end) stores `undefined`. -/
def parseCSV (content : Str) : List Row :=
  let lines := (jsTrim content).splitOn '\n'
  if lines.length = 0 then []
  else
    let headers := ((lines.headD []).splitOn ',').map jsTrim
    (List.range (min lines.length (MAX_DATA_ROWS + 1) - 1)).map (fun j =>
      let values := ((lines.getD (j + 1) []).splitOn ',').map jsTrim
      headers.enum.foldl (fun r hi =>
        setKey r hi.2 ((values[hi.1]?).elim JSValue.undefVal jsParseFloatVal)) [])

/-- Strip trailing zero digits of a fraction-digit list. -/
def stripTrailingZeroVals (l : List ℕ) : List ℕ :=
  (l.reverse.dropWhile (fun d => decide (d = 0))).reverse

/-- `JSON.stringify` number printing, modelled for numbers exact at 4
decimal places: minimal decimal digits (integer part, then the fraction
with trailing zeros stripped, omitted entirely when zero). -/
def qToDecStr (q : ℚ) : Str :=
  let n := jsToFixedInt 4 q
  let fp := n.natAbs % 10 ^ 4
  (if n < 0 then ['-'] else []) ++ renderNat (n.natAbs / 10 ^ 4) ++
    (if fp = 0 then []
     else '.' :: (stripTrailingZeroVals (padDigits 4 fp)).map digitChar)

/-- A string needing no JSON escaping: no quote, no backslash, no control
characters. -/
def jsonEscapeFree (s : Str) : Bool :=
  s.all (fun c => !(decide (c = '"')) && !(decide (c = '\\')) &&
    decide (32 ≤ c.toNat))

/-- `JSON.stringify` of a cell value (`NaN` and the infinities print as
`null`). -/
def jsonRenderValue : JSValue → Str
  | .num q => qToDecStr q
  | .str s => '"' :: (s ++ ['"'])
  | .null => "null".toList
  | .nan => "null".toList
  | .inf _ => "null".toList
  | .undefVal => []

/-- `JSON.stringify` of a row: properties with value `undefined` are
dropped. -/
def jsonRenderRow (r : Row) : Str :=
  '{' :: (List.intercalate [',']
    ((r.filter (fun p => !(decide (p.2 = JSValue.undefVal)))).map (fun p =>
      '"' :: (p.1 ++ '"' :: ':' :: jsonRenderValue p.2))) ++ ['}'])

/-- `JSON.stringify(data)` for a table (compact rendering; the source
passes `null, 2` for pretty-printing, whose extra whitespace is
insignificant to `JSON.parse`). -/
def jsonStringifyTable (data : List Row) : Str :=
  '[' :: (List.intercalate [','] (data.map jsonRenderRow) ++ [']'])

/-- Scan a JSON string body up to the closing quote (escape-free model). -/
def scanJsonString : Str → Option (Str × Str)
  | [] => none
  | '"' :: rest => some ([], rest)
  | c :: rest =>
    match scanJsonString rest with
    | some p => some (c :: p.1, p.2)
    | none => none

/-- The optional leading minus of a JSON number, with the sign factor. -/
def splitMinus : Str → ℚ × Str
  | '-' :: r => (-1, r)
  | r => (1, r)

/-- The optional fraction part of a JSON number, after the integer digits
`ipds` (with the sign factor applied to the final value). -/
def parseNumTail (sign : ℚ) (ipds : List ℕ) : Str → Option (ℚ × Str)
  | '.' :: r =>
    let fp := takeDigits r
    if fp.1 = [] then none
    else some (sign * ((digitsToNat ipds : ℚ) + fracVal fp.1), fp.2)
  | rest => some (sign * (digitsToNat ipds : ℚ), rest)

/-- Parse a JSON number (optional minus, digits, optional fraction). -/
def parseJsonNumber (s : Str) : Option (ℚ × Str) :=
  let sp : ℚ × Str := splitMinus s
  let ip := takeDigits sp.2
  if ip.1 = [] then none
  else parseNumTail sp.1 ip.1 ip.2

/-- Parse a JSON scalar value (string, `null`, or number). -/
def parseJsonValue (s : Str) : Option (JSValue × Str) :=
  match s with
  | '"' :: r =>
    match scanJsonString r with
    | some p => some (.str p.1, p.2)
    | none => none
  | 'n' :: 'u' :: 'l' :: 'l' :: r => some (.null, r)
  | r =>
    match parseJsonNumber r with
    | some p => some (.num p.1, p.2)
    | none => none

/-- Parse the members of a JSON object after the opening brace (the first
key is expected immediately; continues over commas until the closing
brace).  The first argument is recursion fuel (one unit per member). -/
def parseColonValue : Str → Option (JSValue × Str)
  | ':' :: r2 => parseJsonValue r2
  | _ => none

/-- Classify the character after a parsed item: the separator `cSep` means
"more items follow", the closer `cEnd` means "done". -/
def sepKind (cSep cEnd : Char) : Str → Option (Bool × Str)
  | c :: r =>
    if c = cSep then some (true, r)
    else if c = cEnd then some (false, r) else none
  | [] => none

/-- Parse the members of a JSON object after the opening brace (the first
key is expected immediately; continues over commas until the closing
brace).  The first argument is recursion fuel (one unit per member). -/
def parseJsonMembers : ℕ → Str → Option (Row × Str)
  | 0, _ => none
  | fuel + 1, s =>
    match s with
    | '"' :: r =>
      match scanJsonString r with
      | some kp =>
        match parseColonValue kp.2 with
        | some vp =>
          match sepKind ',' '}' vp.2 with
          | some (true, r3) =>
            match parseJsonMembers fuel r3 with
            | some mp => some ((kp.1, vp.1) :: mp.1, mp.2)
            | none => none
          | some (false, r3) => some ([(kp.1, vp.1)], r3)
          | none => none
        | none => none
      | none => none
    | _ => none

/-- The body of a JSON object after the opening brace: either the closing
brace at once (the empty object) or a member list. -/
def parseBraceTail (fuel : ℕ) : Str → Option (Row × Str)
  | '}' :: r2 => some ([], r2)
  | r => parseJsonMembers fuel r

/-- Parse a JSON object (a row). -/
def parseJsonRow (fuel : ℕ) : Str → Option (Row × Str)
  | '{' :: r => parseBraceTail fuel r
  | _ => none

/-- Parse the elements of a JSON array of objects after the opening
bracket (fuel, one unit per row). -/
def parseJsonRows : ℕ → Str → Option (List Row × Str)
  | 0, _ => none
  | fuel + 1, s =>
    match parseJsonRow fuel s with
    | some rp =>
      match sepKind ',' ']' rp.2 with
      | some (true, r2) =>
        match parseJsonRows fuel r2 with
        | some lp => some (rp.1 :: lp.1, lp.2)
        | none => none
      | some (false, r2) => some ([rp.1], r2)
      | none => none
    | none => none

/-- The body of the top-level JSON array after the opening bracket: either
the closing bracket at once (the empty table) or a row list, which must
consume the whole input. -/
def jsonParseBody (fuel : ℕ) : Str → Option (List Row)
  | ']' :: r => if r = [] then some [] else none
  | r =>
    match parseJsonRows fuel r with
    | some lp => if lp.2 = [] then some lp.1 else none
    | none => none

/-- `JSON.parse` of a table file: an array of flat objects, expected to
consume the whole input (a parse failure — an exception in JS — is
`none`). -/
def jsonParseTable : Str → Option (List Row)
  | '[' :: r => jsonParseBody (r.length + 2) r
  | _ => none

/-- The two self-contained data formats of `serializeData` /
`parseDataFile` (NetCDF/HDF5 are delegated to the external Python path and
are out of scope). -/
inductive DataFormat : Type
  | csv
  | json
deriving DecidableEq

/-- `serializeData(data, format)`. -/
def serializeData (data : List Row) : DataFormat → Str
  | .csv => serializeCSV data
  | .json => jsonStringifyTable data

/-- `parseDataFile(content, ext)`: `.csv`/`.txt` go through `parseCSV`
(total), `.json` through `JSON.parse` (may throw, hence `Option`). -/
def parseDataFile (content : Str) : DataFormat → Option (List Row)
  | .csv => some (parseCSV content)
  | .json => jsonParseTable content

/-- A "simple string" for the CSV round trip: non-empty, trim-invariant,
free of commas and newlines, and not parseable as a number
(`parseFloat` yields `NaN`). -/
def csvSimpleString (s : Str) : Bool :=
  !(decide (s = [])) && decide (jsTrim s = s) && !(decide (',' ∈ s)) &&
    !(decide ('
' ∈ s)) && (jsParseFloat s).isNone && !(hasInfinityPrefix s)

/-- A usable CSV field name: non-empty, trim-invariant, free of commas and
newlines. -/
def csvSimpleKey (k : Str) : Bool :=
  !(decide (k = [])) && decide (jsTrim k = k) && !(decide (',' ∈ k)) &&
    !(decide ('
' ∈ k))

/-- A CSV-round-trippable cell: a number exact at 4 decimals (and small
enough for plain `toFixed` notation) or a simple string. -/
def csvSimpleValue : JSValue → Bool
  | .num q => decide ((q * 10 ^ 4).den = 1) && decide (|q| < 10 ^ 21)
  | .str s => csvSimpleString s
  | _ => false

/-- The CSV round-trip domain: all rows share the first row's (non-empty,
duplicate-free, simple) field list, every cell is CSV-simple, and the table
fits under the `MAX_DATA_ROWS` ingestion cap. -/
def csvSimpleTable (data : List Row) : Prop :=
  data = [] ∨
  (data.length ≤ MAX_DATA_ROWS ∧
   rowKeys (data.headD []) ≠ [] ∧
   (rowKeys (data.headD [])).Nodup ∧
   (∀ k ∈ rowKeys (data.headD []), csvSimpleKey k = true) ∧
   ∀ row ∈ data, rowKeys row = rowKeys (data.headD []) ∧
     ∀ p ∈ row, csvSimpleValue p.2 = true)

/-- A JSON-round-trippable cell: a 4-decimal-exact number or an
escape-free string. -/
def jsonSimpleValue : JSValue → Bool
  | .num q => decide ((q * 10 ^ 4).den = 1)
  | .str s => jsonEscapeFree s
  | _ => false

/-- The JSON round-trip domain: duplicate-free keys per row, escape-free
key and string characters, 4-decimal-exact numbers. -/
def jsonSimpleTable (data : List Row) : Prop :=
  ∀ row ∈ data, (rowKeys row).Nodup ∧
    ∀ p ∈ row, jsonEscapeFree p.1 = true ∧ jsonSimpleValue p.2 = true

instance (data : List Row) : Decidable (csvSimpleTable data) := by
  unfold csvSimpleTable
  infer_instance

instance (data : List Row) : Decidable (jsonSimpleTable data) := by
  unfold jsonSimpleTable
  infer_instance

/-! ## Concrete inputs used by claim theorems and witnesses -/

/-- Ten concrete pairs (the pair payload is irrelevant to splitting). -/
def c3PairsTen : List ℕ := [0, 1, 2, 3, 4, 5, 6, 7, 8, 9]

/-- Two concrete pairs. -/
def c3PairsTwo : List ℕ := [0, 1]

/-- One hundred concrete pairs (spec Scenario B). -/
def c3PairsHundred : List ℕ := List.range 100

/-- Split parameters `[0.7, 0.15, 0.15]`, `shuffle = false` (Scenario B). -/
def c3Params : SplitParams := ⟨some (7/10), some (3/20), some (3/20), some false⟩

/-- Split parameters with `train_ratio = 0` (falsy, so the code substitutes
the default 0.7). -/
def c3ParamsZero : SplitParams := ⟨some 0, some (3/20), some (3/20), some false⟩

/-- Split parameters with `train_ratio = 1.5`. -/
def c3ParamsBig : SplitParams := ⟨some (3/2), some (3/20), some (3/20), some false⟩

/-- Split parameters with `train_ratio = -0.05`. -/
def c3ParamsNeg : SplitParams := ⟨some (-1/20), some (1/10), some (1/10), some false⟩

/-- Two rows over fields `a`, `b`, `c`; row 0 misses only `a`, so its exact
missing fraction is 1/3 (not representable in 4 decimal digits). -/
def c2RoundData : List Row :=
  [[(['a'], .null), (['b'], .num 1), (['c'], .num 1)],
   [(['a'], .num 1), (['b'], .num 1), (['c'], .num 1)]]

/-- Two rows over fields `a`, `b`, `c` where `a` is missing everywhere
(land); used for the land-mutation counterexample. -/
def c2MutData : List Row :=
  [[(['a'], .null), (['b'], .num 2), (['c'], .null)],
   [(['a'], .null), (['b'], .num 1), (['c'], .num 1)]]

/-- Mask parameters with `missing_ratio_range = [0, 1]`. -/
def c2RangeParams : MaskParams := ⟨some (0, 1), none⟩

/-- Mask parameters with every field absent (all defaults apply). -/
def defaultMaskParams : MaskParams := ⟨none, none⟩

/-- A table whose only field `a` is missing in every row. -/
def c1Data : List Row := [[(['a'], .null)], [(['a'], .str [])]]

/-- Two-row, two-field table for the mask-application witnesses. -/
def c7Data : List Row :=
  [[(['a'], .num 1), (['b'], .num 2)], [(['a'], .num 3), (['b'], .num 4)]]

/-- A single cloud mask flagging field `b` of row 0. -/
def c7Masks : MaskSet :=
  ⟨[(['a'], false), (['b'], false)],
   [⟨0, 0, [(['a'], false), (['b'], false)]⟩]⟩

/-- One ground-truth row with fields `a`, `b`. -/
def c4Data : List Row := [[(['a'], .num 1), (['b'], .num 2)]]

/-- A mask set whose land mask flags `a` while the cloud mask's per-field
map flags nothing. -/
def c4Masks : MaskSet :=
  ⟨[(['a'], true), (['b'], false)],
   [⟨0, 0, [(['a'], false), (['b'], false)]⟩]⟩


/-- The temperature sequence of spec Scenario C: `[10,10,10,50,10,10]`. -/
def spikeScenarioTable : List Row :=
  [[(tempKey, .num 10)], [(tempKey, .num 10)], [(tempKey, .num 10)],
   [(tempKey, .num 50)], [(tempKey, .num 10)], [(tempKey, .num 10)]]

/-- The per-claim ("spec-side") validity test, written from the claim's
words: the field-key SETS of `input` and `groundTruth` are equal, and some
`input` field is `null` where the corresponding `groundTruth` field is
non-`null`.  Used only to exhibit the divergence from the code. -/
def specPairValid (p : TrainingPair) : Bool :=
  ((rowKeys p.input).all (fun k => (rowKeys p.groundTruth).contains k) &&
    (rowKeys p.groundTruth).all (fun k => (rowKeys p.input).contains k)) &&
  hasMaskedValues p

/-- A pair whose key sets differ (`{a, b}` vs `{a, c}`) but whose key
counts agree, with `input.b = null` while `groundTruth.b` is absent. -/
def c6Pair : TrainingPair :=
  ⟨[(['a'], .num 1), (['b'], .null)],
   [(['a'], .num 1), (['c'], .num 2)], 0, 0⟩

/-- A one-row, one-field table whose only value is a string that
`parseFloat` cannot parse (so it lies inside C9's literal domain), but
which contains a comma, so its CSV round trip fails. -/
def c9CommaTable : List Row := [[(['k'], JSValue.str ['a', ',', 'b'])]]

/-- A table in both round-trip domains: simple keys and simple string
values shared by every row. -/
def c9GoodTable : List Row :=
  [[(['t'], JSValue.str ['w', 'a', 'r', 'm']), (['s'], JSValue.str ['o', 'k'])],
   [(['t'], JSValue.str ['c', 'o', 'l', 'd']), (['s'], JSValue.str ['x'])]]

/-! ## Claim theorems -/

/-- C10: `validate_pairs` on an empty pair list reports
`totalPairs = 0`, `validPairs = 0`, `invalidPairs = 0`, and a
`validPercentage` that is `NaN` (the JS result of `(0/0)*100` surviving
`toFixed(2)` and `Number(...)`), hence not a number in `[0, 100]`. -/
theorem claim_C10_validatePairs_empty :
    (validatePairs []).1 = ⟨0, 0, 0, JSNum.nan⟩ := rfl

/-- C8: `generate_masks` on a malformed (non-array) input or an empty table
returns an empty `MaskSet` (no land entries, no cloud masks) together with a
non-empty warning list; the guard returns before any processing, so no
exception can be raised (the embedding is a total function and both guard
branches are plain returns). -/
theorem claim_C8_generateMasks_failure (p : MaskParams) :
    ((generateMasksAny none p).masks = ⟨[], []⟩ ∧
      (generateMasksAny none p).warnings ≠ []) ∧
    ((generateMasksAny (some []) p).masks = ⟨[], []⟩ ∧
      (generateMasksAny (some []) p).warnings ≠ []) := by
  refine ⟨⟨rfl, by simp [generateMasksAny]⟩, ?_, ?_⟩
  · simp [generateMasksAny, generateMasks]
  · simp [generateMasksAny, generateMasks]

/-- C5 (counterexample): contrary to the claim, the spike detector with
`spike_threshold = 3` does NOT flag index 3 of `[10,10,10,50,10,10]`:
at index 3 both neighbours are 10, so `stdWindow = 0` and the
`stdWindow > 0` guard rejects the row. -/
theorem claim_C5_counterexample :
    (spikeFlags spikeScenarioTable 3).getD 3 false = false := by
  simp only [spikeFlags, spikeScenarioTable, spikeCond, tempKey, rowGet,
    List.enum, List.enumFrom, List.map, List.getD, List.get?, List.find?,
    List.length]
  norm_num

/-- C5 (amended): the spike detector with `spike_threshold = 3` on
`[10,10,10,50,10,10]` flags NO index at all: index 3's neighbours are equal,
so its `stdWindow` is 0 and the `stdWindow > 0` guard fails, and at every
other interior index the deviation does not exceed `3 * stdWindow`. -/
theorem claim_C5_spike_scenario :
    spikeFlags spikeScenarioTable 3 =
      [false, false, false, false, false, false] := by
  simp only [spikeFlags, spikeScenarioTable, spikeCond, tempKey, rowGet,
    List.enum, List.enumFrom, List.map, List.getD, List.get?, List.find?,
    List.length]
  norm_num

/-- The fold of `validatePairs` counts exactly the pairs passing
`codePairValid` as valid and all others as invalid. -/
theorem validateStep_fold_counts (l : List (ℕ × TrainingPair))
    (acc : ℕ × ℕ × List String) :
    (l.foldl validateStep acc).1 =
        acc.1 + l.countP (fun ip => codePairValid ip.2) ∧
      (l.foldl validateStep acc).2.1 =
        acc.2.1 + l.countP (fun ip => !codePairValid ip.2) := by
  induction l generalizing acc with
  | nil => simp
  | cons a t ih =>
    simp only [List.foldl_cons, List.countP_cons]
    obtain ⟨ih1, ih2⟩ := ih (validateStep acc a)
    have hs1 : (validateStep acc a).1 =
        acc.1 + (if codePairValid a.2 then 1 else 0) := by
      unfold validateStep codePairValid
      by_cases hlen :
          (rowKeys a.2.input).length = (rowKeys a.2.groundTruth).length
      · by_cases hmask : hasMaskedValues a.2
        · simp [hlen, hmask]
        · simp [hlen, hmask]
      · simp [hlen]
    have hs2 : (validateStep acc a).2.1 =
        acc.2.1 + (if codePairValid a.2 then 0 else 1) := by
      unfold validateStep codePairValid
      by_cases hlen :
          (rowKeys a.2.input).length = (rowKeys a.2.groundTruth).length
      · by_cases hmask : hasMaskedValues a.2
        · simp [hlen, hmask]
        · simp [hlen, hmask]
      · simp [hlen]
    constructor
    · rw [ih1, hs1]
      by_cases hv : codePairValid a.2 <;> simp [hv] <;> omega
    · rw [ih2, hs2]
      by_cases hv : codePairValid a.2 <;> simp [hv] <;> omega

/-- C6 (amended): `validate_pairs` counts a pair as valid iff the key
COUNTS (not key sets) of `input` and `groundTruth` agree AND some key of
`input` holds `null` where `groundTruth` holds a non-`null` value (an
absent `groundTruth` key reads as `undefined`, which passes the
`!== null` test); it reports those counts, their complement, and the
percentage `Number(((valid / total) * 100).toFixed(2))`. -/
theorem claim_C6_validatePairs_characterization (pairs : List TrainingPair) :
    (validatePairs pairs).1.totalPairs = pairs.length ∧
    (validatePairs pairs).1.validPairs =
      (pairs.filter codePairValid).length ∧
    (validatePairs pairs).1.invalidPairs =
      pairs.length - (pairs.filter codePairValid).length ∧
    (validatePairs pairs).1.validPercentage =
      (if pairs.length = 0 then JSNum.nan
       else JSNum.num (toFixedRat 2
         (((pairs.filter codePairValid).length : ℚ) / (pairs.length : ℚ) * 100))) := by
  obtain ⟨h1, h2⟩ := validateStep_fold_counts pairs.enum (0, 0, [])
  have hcount : pairs.enum.countP (fun ip => codePairValid ip.2) =
      pairs.countP codePairValid := by
    have h := List.countP_map (p := codePairValid) (f := Prod.snd)
      (l := pairs.enum)
    rw [List.enum_map_snd] at h
    exact h.symm
  have hcount2 : pairs.enum.countP (fun ip => !codePairValid ip.2) =
      pairs.countP (fun p => !codePairValid p) := by
    have h := List.countP_map (p := fun p => !codePairValid p) (f := Prod.snd)
      (l := pairs.enum)
    rw [List.enum_map_snd] at h
    exact h.symm
  have hfil : pairs.countP codePairValid = (pairs.filter codePairValid).length := by
    rw [List.countP_eq_length_filter]
  have hsplit : pairs.countP (fun p => !codePairValid p) =
      pairs.length - pairs.countP codePairValid := by
    have h := List.length_eq_countP_add_countP codePairValid (l := pairs)
    have he : (fun a => decide (¬ codePairValid a = true)) =
        (fun p => !codePairValid p) := by
      funext a
      by_cases hc : codePairValid a <;> simp [hc]
    rw [he] at h
    omega
  refine ⟨rfl, ?_, ?_, ?_⟩
  · show (pairs.enum.foldl validateStep (0, 0, [])).1 = _
    rw [h1, hcount, hfil]
    simp
  · show (pairs.enum.foldl validateStep (0, 0, [])).2.1 = _
    rw [h2, hcount2, hsplit, hfil]
    simp
  · show (if pairs.length = 0 then JSNum.nan else _) = _
    by_cases hz : pairs.length = 0
    · simp [hz]
    · simp only [hz, if_neg]
      have : (pairs.enum.foldl validateStep (0, 0, [])).1 =
          (pairs.filter codePairValid).length := by
        rw [h1, hcount, hfil]; simp
      rw [this]

/-- C6 (counterexample): `validatePairs` counts `c6Pair` as VALID (key
counts 2 = 2, and `input.b === null` while `groundTruth.b` is `undefined`,
which is `!== null`), although the claim's key-set test rejects it: the
claimed iff is false at this input. -/
theorem claim_C6_counterexample :
    specPairValid c6Pair = false ∧
      (validatePairs [c6Pair]).1.validPairs = 1 := by
  constructor
  · decide
  · decide

-- Helper lemmas about boolean maps and masked rows.

theorem lookupBool_cons (k : Str) (b : Bool) (m : List (Str × Bool)) (f : Str) :
    lookupBool ((k, b) :: m) f = if k = f then b else lookupBool m f := by
  unfold lookupBool
  by_cases h : k = f
  · simp [List.find?, h]
  · simp [List.find?, decide_eq_false h, h]

theorem lookupBool_not_mem (m : List (Str × Bool)) (f : Str)
    (h : f ∉ m.map Prod.fst) : lookupBool m f = false := by
  induction m with
  | nil => rfl
  | cons a t ih =>
    simp only [List.map_cons, List.mem_cons] at h
    push_neg at h
    obtain ⟨h1, h2⟩ := h
    obtain ⟨k, b⟩ := a
    rw [lookupBool_cons]
    simp only [ne_eq] at h1
    rw [if_neg (fun hc => h1 hc.symm)]
    exact ih h2

theorem lookupBool_map_keys (K : List Str) (g : Str → Bool) (f : Str)
    (hf : f ∈ K) : lookupBool (K.map (fun k => (k, g k))) f = g f := by
  induction K with
  | nil => simp at hf
  | cons k t ih =>
    simp only [List.map_cons]
    rw [lookupBool_cons]
    by_cases h : k = f
    · rw [if_pos h, h]
    · rw [if_neg h]
      rcases List.mem_cons.mp hf with h1 | h2
      · exact absurd h1.symm h
      · exact ih h2

theorem rowGet_map_keys (K : List Str) (g : Str → JSValue) (f : Str)
    (hf : f ∈ K) : rowGet (K.map (fun k => (k, g k))) f = g f := by
  induction K with
  | nil => simp at hf
  | cons k t ih =>
    simp only [List.map_cons]
    unfold rowGet
    by_cases h : k = f
    · simp [List.find?, h]
    · simp only [List.find?, decide_eq_false h]
      rcases List.mem_cons.mp hf with h1 | h2
      · exact absurd h1.symm h
      · exact ih h2

theorem setKey_not_mem (r : Row) (k : Str) (v : JSValue)
    (h : k ∉ rowKeys r) : setKey r k v = r ++ [(k, v)] := by
  unfold setKey
  rw [if_neg]
  intro hc
  rw [List.any_eq_true] at hc
  obtain ⟨p, hp, hpk⟩ := hc
  rw [decide_eq_true_eq] at hpk
  exact h (List.mem_map.mpr ⟨p, hp, hpk⟩)

theorem foldl_setKey_fresh (K : List Str) (g : Str → JSValue) (acc : Row)
    (hnd : K.Nodup) (hdisj : ∀ k ∈ K, k ∉ rowKeys acc) :
    K.foldl (fun r k => setKey r k (g k)) acc =
      acc ++ K.map (fun k => (k, g k)) := by
  induction K generalizing acc with
  | nil => simp
  | cons k t ih =>
    simp only [List.foldl_cons, List.map_cons]
    rw [setKey_not_mem acc k (g k) (hdisj k (List.mem_cons_self k t))]
    rw [ih (acc ++ [(k, g k)]) (List.nodup_cons.mp hnd).2]
    · simp
    · intro k' hk'
      unfold rowKeys
      rw [List.map_append]
      simp only [List.mem_append, List.map_cons, List.map_nil]
      push_neg
      constructor
      · exact hdisj k' (List.mem_cons_of_mem k hk')
      · simp only [List.mem_singleton]
        intro hc
        exact absurd (hc ▸ hk') (List.nodup_cons.mp hnd).1

theorem maskedInputRow_eq (gtRow : Row) (cm lm : List (Str × Bool))
    (hnd : (rowKeys gtRow).Nodup) :
    maskedInputRow gtRow cm lm =
      (rowKeys gtRow).map (fun k =>
        (k, if lookupBool cm k || lookupBool lm k then .null
            else rowGet gtRow k)) := by
  unfold maskedInputRow
  rw [foldl_setKey_fresh _ _ _ hnd (by simp [rowKeys])]
  simp

theorem rowGet_applyCloudMask (mask : List (Str × Bool)) (row : Row) (f : Str)
    (hnd : (mask.map Prod.fst).Nodup) :
    rowGet (applyCloudMask mask row) f =
      if lookupBool mask f then .null else rowGet row f := by
  induction mask generalizing row with
  | nil =>
    unfold applyCloudMask lookupBool
    simp
  | cons a t ih =>
    obtain ⟨k, b⟩ := a
    simp only [List.map_cons, List.nodup_cons] at hnd
    obtain ⟨hk, hndt⟩ := hnd
    have step : applyCloudMask ((k, b) :: t) row =
        applyCloudMask t (if b then setKey row k .null else row) := by
      unfold applyCloudMask
      simp
    rw [step, ih _ hndt, lookupBool_cons]
    by_cases hf : k = f
    · subst hf
      rw [if_pos rfl, lookupBool_not_mem t k hk]
      by_cases hb : b
      · simp [hb, rowGet_setKey_self]
      · simp [hb]
    · rw [if_neg hf]
      have hget : ∀ b' : Bool,
          rowGet (if b' = true then setKey row k .null else row) f =
            rowGet row f := by
        intro b'
        by_cases hb : b' = true
        · rw [if_pos hb, rowGet_setKey_ne row k f .null (fun hc => hf hc.symm)]
        · rw [if_neg hb]
      rw [hget b]

/-- C7: `applyMasksToData` preserves the row count and passes every row with
index at or beyond `cloudMasks.length` through unchanged (no dropping).  In
this pure embedding the input table is a value and cannot be mutated; the
source guarantees the same by building each masked row as a fresh
`{ ...row }` copy and assembling the output with `data.map`. -/
theorem claim_C7_applyMasks_passthrough (data : List Row) (masks : MaskSet) :
    (applyMasksToData data masks).data.length = data.length ∧
    ∀ i, masks.cloudMasks.length ≤ i →
      (applyMasksToData data masks).data.getD i [] = data.getD i [] := by
  unfold applyMasksToData
  by_cases hc : masks.cloudMasks = []
  · simp [hc]
  · simp only [if_neg hc]
    constructor
    · simp
    · intro i hi
      simp only [List.getD_eq_getElem?_getD]
      rw [List.getElem?_map, List.getElem?_enum]
      have hnone : masks.cloudMasks[i]? = none := by
        rw [List.getElem?_eq_none_iff]
        exact hi
      cases hdi : data[i]? with
      | none => simp
      | some row => simp [hnone]

/-- C7 witness: at a concrete table and mask set, row index 1 (beyond the
single cloud mask) passes through unchanged. -/
theorem claim_C7_witness :
    c7Masks.cloudMasks.length ≤ 1 ∧
      (applyMasksToData c7Data c7Masks).data.getD 1 [] = c7Data.getD 1 [] :=
  ⟨by decide, (claim_C7_applyMasks_passthrough c7Data c7Masks).2 1 (by decide)⟩

/-- C4 (counterexample): `applyMasksToData` does NOT implement the claimed
"cloud OR land" rule: with `landMask.a = true` but the cloud mask's
per-field map all-false, field `a` of row 0 keeps its ground-truth value
instead of being set to `null` — the function never consults `landMask`. -/
theorem claim_C4_counterexample :
    lookupBool c4Masks.landMask ['a'] = true ∧
      rowGet ((applyMasksToData c4Data c4Masks).data.getD 0 []) ['a'] ≠
        JSValue.null := by
  constructor
  · decide
  · decide

/-- C4 (amended): `applyMasksToData` (OceanMaskProcessTool) nulls exactly
the fields flagged in the row's cloud mask per-field map, ignoring
`landMask` entirely; the "cloud OR land" rule of the claim is implemented
only by `buildTrainingPairs` (OceanTrainingDataTool), whose pair inputs
null exactly the fields flagged by the cloud mask OR the land mask and
copy every other ground-truth field. -/
theorem claim_C4_mask_application :
    (∀ (data : List Row) (masks : MaskSet) (i : ℕ) (f : Str)
      (hi : i < masks.cloudMasks.length), i < data.length →
      ((masks.cloudMasks.get ⟨i, hi⟩).mask.map Prod.fst).Nodup →
      rowGet ((applyMasksToData data masks).data.getD i []) f =
        (if lookupBool (masks.cloudMasks.get ⟨i, hi⟩).mask f then .null
         else rowGet (data.getD i []) f)) ∧
    (∀ (gt : List Row) (masks : MaskSet) (i : ℕ),
      i < masks.cloudMasks.length → i < gt.length →
      (rowKeys (gt.getD i [])).Nodup →
      ((buildTrainingPairs gt masks).pairs.getD i default).groundTruth =
          gt.getD i [] ∧
      rowKeys ((buildTrainingPairs gt masks).pairs.getD i default).input =
          rowKeys (gt.getD i []) ∧
      ∀ f ∈ rowKeys (gt.getD i []),
        rowGet ((buildTrainingPairs gt masks).pairs.getD i default).input f =
          (if lookupBool (masks.cloudMasks.getD i default).mask f ||
              lookupBool masks.landMask f
           then .null else rowGet (gt.getD i []) f)) := by
  constructor
  · intro data masks i f hi hd hnd
    have hc : masks.cloudMasks ≠ [] := by
      intro hc
      rw [hc] at hi
      simp at hi
    unfold applyMasksToData
    simp only [if_neg hc, List.getD_eq_getElem?_getD]
    rw [List.getElem?_map, List.getElem?_enum]
    have hsome : masks.cloudMasks[i]? = some (masks.cloudMasks.get ⟨i, hi⟩) := by
      rw [List.getElem?_eq_getElem hi]
      rfl
    have hdata : data[i]? = some (data.getD i []) := by
      rw [List.getElem?_eq_getElem hd]
      rw [List.getD_eq_getElem?_getD, List.getElem?_eq_getElem hd]
      rfl
    rw [hdata]
    simp only [Option.map_some', Option.getD_some, hsome]
    exact rowGet_applyCloudMask _ _ f hnd
  · intro gt masks i hi hg hnd
    have hc : masks.cloudMasks ≠ [] := by
      intro hc
      rw [hc] at hi
      simp at hi
    have hn : i < min masks.cloudMasks.length gt.length := lt_min hi hg
    have hpair : (buildTrainingPairs gt masks).pairs.getD i default =
        ⟨maskedInputRow (gt.getD i [])
            (masks.cloudMasks.getD i default).mask masks.landMask,
          gt.getD i [], i, (masks.cloudMasks.getD i default).missFrac⟩ := by
      unfold buildTrainingPairs
      simp only [if_neg hc, List.getD_eq_getElem?_getD]
      rw [List.getElem?_map]
      rw [List.getElem?_range hn]
      rfl
    rw [hpair]
    refine ⟨rfl, ?_, ?_⟩
    · simp only
      rw [maskedInputRow_eq _ _ _ hnd]
      unfold rowKeys
      rw [List.map_map]
      simp
    · intro f hf
      simp only
      rw [maskedInputRow_eq _ _ _ hnd]
      exact rowGet_map_keys _ _ f hf

/-- C4 witness: at a concrete ground truth and mask set, the amended rule
evaluates as stated for `buildTrainingPairs` on field `a` (flagged in the
land mask only, hence nulled in the pair input). -/
theorem claim_C4_witness :
    (0 < c4Masks.cloudMasks.length ∧ 0 < c4Data.length ∧
      (rowKeys (c4Data.getD 0 [])).Nodup) ∧
      rowGet ((buildTrainingPairs c4Data c4Masks).pairs.getD 0 default).input
          ['a'] =
        (if lookupBool (c4Masks.cloudMasks.getD 0 default).mask ['a'] ||
            lookupBool c4Masks.landMask ['a']
         then .null else rowGet (c4Data.getD 0 []) ['a']) :=
  ⟨⟨by decide, by decide, by decide⟩,
    ((claim_C4_mask_application.2 c4Data c4Masks 0 (by decide) (by decide)
      (by decide)).2.2) ['a'] (by decide)⟩

-- Facts about `tableSet` and the land-mask projection of `generateMasks`.

theorem tableSet_length (data : List Row) (i : ℕ) (f : Str) (v : JSValue) :
    (tableSet data i f v).length = data.length := by
  simp [tableSet]

theorem tableSet_getElem? (data : List Row) (i : ℕ) (f : Str) (v : JSValue)
    (j : ℕ) :
    (tableSet data i f v)[j]? =
      data[j]?.map (fun r => if j = i then setKey r f v else r) := by
  unfold tableSet
  rw [List.getElem?_map, List.getElem?_enum]
  cases data[j]? <;> simp

theorem tableSet_headD (data : List Row) (i : ℕ) (f : Str) (v : JSValue)
    (hne : data ≠ []) :
    (tableSet data i f v).headD [] =
      if 0 = i then setKey (data.headD []) f v else data.headD [] := by
  obtain ⟨d0, rest, rfl⟩ := List.exists_cons_of_ne_nil hne
  simp only [tableSet, List.enum, List.enumFrom, List.map_cons, List.headD]

theorem generateMasks_landMask_eq (data : List Row) (p : MaskParams)
    (hne : data ≠ []) :
    (generateMasks data p).masks.landMask =
      computeLandMask data (rowKeys (data.headD [])) := by
  unfold generateMasks
  rw [if_neg hne]
  dsimp only
  split <;> rfl

/-- C1: the land mask sets a field of the table to `true` iff that field's
value is missing (null, undefined, empty string, or NaN) in every row; and
forcing one non-missing value into any row flips the field's land flag to
`false`.  (The mask's key domain is `Object.keys` of the first row, so the
statement quantifies over those fields.) -/
theorem claim_C1_land_mask (data : List Row) (p : MaskParams) (f : Str)
    (hne : data ≠ []) (hf : f ∈ rowKeys (data.headD [])) :
    (lookupBool (generateMasks data p).masks.landMask f = true ↔
      ∀ row ∈ data, isMissing (rowGet row f) = true) ∧
    (∀ i v, i < data.length → isMissing v = false →
      lookupBool (generateMasks (tableSet data i f v) p).masks.landMask f =
        false) := by
  constructor
  · rw [generateMasks_landMask_eq data p hne]
    unfold computeLandMask
    rw [lookupBool_map_keys _ _ f hf]
    exact List.all_eq_true
  · intro i v hi hv
    have hne' : tableSet data i f v ≠ [] := by
      intro hc
      have := tableSet_length data i f v
      rw [hc] at this
      simp at this
      exact hne (List.length_eq_zero.mp this.symm)
    have hf' : f ∈ rowKeys ((tableSet data i f v).headD []) := by
      rw [tableSet_headD data i f v hne]
      by_cases h0 : 0 = i
      · rw [if_pos h0, rowKeys_setKey_mem _ _ _ hf]
        exact hf
      · rw [if_neg h0]
        exact hf
    rw [generateMasks_landMask_eq _ p hne']
    unfold computeLandMask
    rw [lookupBool_map_keys _ _ f hf']
    have hmem : setKey (data.getD i []) f v ∈ tableSet data i f v := by
      have hsome : (tableSet data i f v)[i]? =
          some (setKey (data.getD i []) f v) := by
        rw [tableSet_getElem? data i f v i, List.getElem?_eq_getElem hi]
        simp only [Option.map_some', if_pos rfl]
        rw [List.getD_eq_getElem?_getD, List.getElem?_eq_getElem hi]
        rfl
      exact List.getElem?_mem hsome
    rw [Bool.eq_false_iff]
    intro hall
    have := List.all_eq_true.mp hall _ hmem
    rw [rowGet_setKey_self, hv] at this
    exact Bool.false_ne_true this

/-- C1 witness: on a two-row table whose only field `a` holds `null` and
`''`, the iff and the flip property hold (field `a` is land). -/
theorem claim_C1_witness :
    (c1Data ≠ [] ∧ ['a'] ∈ rowKeys (c1Data.headD [])) ∧
      ((lookupBool (generateMasks c1Data defaultMaskParams).masks.landMask
          ['a'] = true ↔
        ∀ row ∈ c1Data, isMissing (rowGet row ['a']) = true) ∧
      (∀ i v, i < c1Data.length → isMissing v = false →
        lookupBool (generateMasks (tableSet c1Data i ['a'] v)
            defaultMaskParams).masks.landMask ['a'] = false)) :=
  ⟨⟨by decide, by decide⟩,
    claim_C1_land_mask c1Data defaultMaskParams ['a'] (by decide) (by decide)⟩

-- JavaScript slice on nonnegative indices.

theorem take_min_length {α : Type} (l : List α) (n : ℕ) :
    l.take (min n l.length) = l.take n := by
  rcases le_total n l.length with h | h
  · rw [min_eq_left h]
  · rw [min_eq_right h, List.take_length, List.take_of_length_le h]

theorem drop_min_length {α : Type} (l : List α) (n : ℕ) :
    l.drop (min n l.length) = l.drop n := by
  rcases le_total n l.length with h | h
  · rw [min_eq_left h]
  · rw [min_eq_right h, List.drop_length,
      (List.drop_eq_nil_iff_le).mpr h]

theorem jsSlice_zero {α : Type} (l : List α) (e : ℤ) (he : 0 ≤ e) :
    jsSlice l 0 e = l.take e.toNat := by
  unfold jsSlice jsNormIndex
  dsimp only
  rw [if_neg (by omega : ¬ (0 : ℤ) < 0), if_neg (not_lt.mpr he)]
  simp only [Int.toNat_zero, Nat.zero_min, List.drop_zero, Nat.sub_zero]
  exact take_min_length l e.toNat

theorem jsSlice_nonneg {α : Type} (l : List α) (s e : ℤ)
    (hs : 0 ≤ s) (hse : s ≤ e) :
    jsSlice l s e = (l.drop s.toNat).take (e.toNat - s.toNat) := by
  unfold jsSlice jsNormIndex
  dsimp only
  rw [if_neg (not_lt.mpr hs), if_neg (not_lt.mpr (le_trans hs hse))]
  rcases le_total s.toNat l.length with hsl | hsl
  · rw [min_eq_left hsl]
    rcases le_total e.toNat l.length with hel | hel
    · rw [min_eq_left hel]
    · rw [min_eq_right hel]
      have hlen : (l.drop s.toNat).length = l.length - s.toNat :=
        List.length_drop s.toNat l
      rw [List.take_of_length_le (by omega),
        List.take_of_length_le (by omega)]
  · rw [min_eq_right hsl, List.drop_length,
      (List.drop_eq_nil_iff_le).mpr hsl]
    simp

theorem jsSliceFrom_nonneg {α : Type} (l : List α) (s : ℤ) (hs : 0 ≤ s) :
    jsSliceFrom l s = l.drop s.toNat := by
  unfold jsSliceFrom jsNormIndex
  rw [if_neg (not_lt.mpr hs)]
  exact drop_min_length l s.toNat

/-- C3 (amended): write `tr`/`vr` for the EFFECTIVE ratios (the code
substitutes the defaults 0.7/0.15 for an absent or zero parameter).
Whenever `tr, vr ≥ 0`, the three partition sizes sum exactly to `N` (for
arbitrary `tr + vr`, thanks to slice clamping); when moreover
`tr + vr ≤ 1`, the sizes are exactly `⌊N*tr⌋`, `⌊N*vr⌋`, and the
remainder; and with `shuffle = false` the partitions are the three
contiguous segments of the pair list in original order. -/
theorem claim_C3_split_dataset {α : Type} (pairs : List α)
    (params : SplitParams) (sh : List α → List α)
    (hsh : ∀ l : List α, (sh l).length = l.length) :
    ((0 ≤ effTrainFrac params → 0 ≤ effValFrac params →
      (splitDataset pairs params sh).train.length +
        (splitDataset pairs params sh).val.length +
        (splitDataset pairs params sh).test.length = pairs.length) ∧
    (0 ≤ effTrainFrac params → 0 ≤ effValFrac params →
      effTrainFrac params + effValFrac params ≤ 1 →
      (splitDataset pairs params sh).train.length =
          (⌊(pairs.length : ℚ) * effTrainFrac params⌋).toNat ∧
        (splitDataset pairs params sh).val.length =
          (⌊(pairs.length : ℚ) * effValFrac params⌋).toNat ∧
        (splitDataset pairs params sh).test.length =
          pairs.length - (⌊(pairs.length : ℚ) * effTrainFrac params⌋).toNat -
            (⌊(pairs.length : ℚ) * effValFrac params⌋).toNat) ∧
    (params.shuffle = some false → 0 ≤ effTrainFrac params →
      0 ≤ effValFrac params →
      (splitDataset pairs params sh).train =
          pairs.take (⌊(pairs.length : ℚ) * effTrainFrac params⌋).toNat ∧
        (splitDataset pairs params sh).val =
          (pairs.drop
              (⌊(pairs.length : ℚ) * effTrainFrac params⌋).toNat).take
            (⌊(pairs.length : ℚ) * effValFrac params⌋).toNat ∧
        (splitDataset pairs params sh).test =
          pairs.drop ((⌊(pairs.length : ℚ) * effTrainFrac params⌋).toNat +
            (⌊(pairs.length : ℚ) * effValFrac params⌋).toNat))) := by
  set data :=
    (if (params.shuffle != some false) = true then sh pairs else pairs)
    with hdata
  have hdata_len : data.length = pairs.length := by
    rw [hdata]
    split
    · exact hsh pairs
    · rfl
  set tr := effTrainFrac params with htr_def
  set vr := effValFrac params with hvr_def
  have train_eq : (splitDataset pairs params sh).train =
      jsSlice data 0 ⌊(data.length : ℚ) * tr⌋ := rfl
  have val_eq : (splitDataset pairs params sh).val =
      jsSlice data ⌊(data.length : ℚ) * tr⌋
        (⌊(data.length : ℚ) * tr⌋ + ⌊(data.length : ℚ) * vr⌋) := rfl
  have test_eq : (splitDataset pairs params sh).test =
      jsSliceFrom data (⌊(data.length : ℚ) * tr⌋ + ⌊(data.length : ℚ) * vr⌋) :=
    rfl
  rw [hdata_len] at train_eq val_eq test_eq
  set ts : ℤ := ⌊(pairs.length : ℚ) * tr⌋ with hts
  set vs : ℤ := ⌊(pairs.length : ℚ) * vr⌋ with hvs
  have main : ∀ (htr : 0 ≤ tr) (hvr : 0 ≤ vr),
      (splitDataset pairs params sh).train.length = min ts.toNat pairs.length ∧
      (splitDataset pairs params sh).val.length =
        min vs.toNat (pairs.length - ts.toNat) ∧
      (splitDataset pairs params sh).test.length =
        pairs.length - (ts.toNat + vs.toNat) := by
    intro htr hvr
    have hts0 : 0 ≤ ts := Int.floor_nonneg.mpr
      (mul_nonneg (by positivity) htr)
    have hvs0 : 0 ≤ vs := Int.floor_nonneg.mpr
      (mul_nonneg (by positivity) hvr)
    have htoNat : (ts + vs).toNat = ts.toNat + vs.toNat :=
      Int.toNat_add hts0 hvs0
    refine ⟨?_, ?_, ?_⟩
    · rw [train_eq, jsSlice_zero data ts hts0, List.length_take, hdata_len]
    · rw [val_eq, jsSlice_nonneg data ts (ts + vs) hts0 (by omega),
        List.length_take, List.length_drop, hdata_len, htoNat]
      omega
    · rw [test_eq, jsSliceFrom_nonneg data (ts + vs) (by omega),
        List.length_drop, hdata_len, htoNat]
  refine ⟨?_, ?_, ?_⟩
  · intro htr hvr
    obtain ⟨h1, h2, h3⟩ := main htr hvr
    omega
  · intro htr hvr hsum
    obtain ⟨h1, h2, h3⟩ := main htr hvr
    have hts0 : 0 ≤ ts := Int.floor_nonneg.mpr
      (mul_nonneg (by positivity) htr)
    have hvs0 : 0 ≤ vs := Int.floor_nonneg.mpr
      (mul_nonneg (by positivity) hvr)
    have hbound : ts + vs ≤ (pairs.length : ℤ) := by
      have hle : ts + vs ≤ ⌊(pairs.length : ℚ) * tr + (pairs.length : ℚ) * vr⌋ := by
        apply Int.le_floor.mpr
        push_cast
        have h1 := Int.floor_le ((pairs.length : ℚ) * tr)
        have h2 := Int.floor_le ((pairs.length : ℚ) * vr)
        rw [hts, hvs]
        push_cast at h1 h2 ⊢
        linarith
      have hle2 : ⌊(pairs.length : ℚ) * tr + (pairs.length : ℚ) * vr⌋ ≤
          (pairs.length : ℤ) := by
        rw [show (pairs.length : ℚ) * tr + (pairs.length : ℚ) * vr =
            (pairs.length : ℚ) * (tr + vr) by ring]
        calc ⌊(pairs.length : ℚ) * (tr + vr)⌋ ≤ ⌊((pairs.length : ℕ) : ℚ)⌋ :=
              Int.floor_le_floor
                (mul_le_of_le_one_right (by positivity) hsum)
          _ = (pairs.length : ℤ) := Int.floor_natCast _
      exact le_trans hle hle2
    have hnat : ts.toNat + vs.toNat ≤ pairs.length := by omega
    refine ⟨?_, ?_, ?_⟩
    · rw [h1]; omega
    · rw [h2]; omega
    · rw [h3]; omega
  · intro hsf htr hvr
    have hts0 : 0 ≤ ts := Int.floor_nonneg.mpr
      (mul_nonneg (by positivity) htr)
    have hvs0 : 0 ≤ vs := Int.floor_nonneg.mpr
      (mul_nonneg (by positivity) hvr)
    have htoNat : (ts + vs).toNat = ts.toNat + vs.toNat :=
      Int.toNat_add hts0 hvs0
    have hdp : data = pairs := by
      rw [hdata, hsf]
      simp
    refine ⟨?_, ?_, ?_⟩
    · rw [train_eq, hdp, jsSlice_zero pairs ts hts0]
    · rw [val_eq, hdp, jsSlice_nonneg pairs ts (ts + vs) hts0 (by omega),
        htoNat]
      congr 1
      omega
    · rw [test_eq, hdp, jsSliceFrom_nonneg pairs (ts + vs) (by omega), htoNat]

/-- C3 (counterexample): the claimed size formulas fail for ratios the code
treats specially.  (a) `train_ratio = 0` is falsy, so the code silently uses
the default 0.7: ten pairs give 7 train pairs, not `⌊10*0⌋ = 0`.
(b) `train_ratio = 1.5` clamps: two pairs give 2 train pairs, not
`⌊2*1.5⌋ = 3`.  (c) `train_ratio = -0.05` hits JS negative-slice
semantics and breaks even the exact-cover property: the three parts of ten
pairs have 9 + 0 + 10 = 19 elements. -/
theorem claim_C3_counterexample :
    ((splitDataset c3PairsTen c3ParamsZero id).train.length = 7 ∧
      (⌊(c3PairsTen.length : ℚ) * 0⌋).toNat = 0) ∧
    ((splitDataset c3PairsTwo c3ParamsBig id).train.length = 2 ∧
      (⌊(c3PairsTwo.length : ℚ) * (3/2)⌋).toNat = 3) ∧
    ((splitDataset c3PairsTen c3ParamsNeg id).train.length +
      (splitDataset c3PairsTen c3ParamsNeg id).val.length +
      (splitDataset c3PairsTen c3ParamsNeg id).test.length = 19 ∧
      c3PairsTen.length = 10) := by
  refine ⟨⟨?_, by norm_num [c3PairsTen]⟩,
    ⟨?_, by norm_num [c3PairsTwo]; decide⟩,
    ⟨?_, by norm_num [c3PairsTen]⟩⟩
  · norm_num [splitDataset, c3PairsTen, c3ParamsZero, fracOrDefault,
      jsSlice, jsNormIndex]
    decide
  · norm_num [splitDataset, c3PairsTwo, c3ParamsBig, fracOrDefault,
      jsSlice, jsNormIndex]
  · norm_num [splitDataset, c3PairsTen, c3ParamsNeg, fracOrDefault,
      jsSlice, jsSliceFrom, jsNormIndex]
    decide

/-- C3 witness: 100 pairs with ratios `[0.7, 0.15, 0.15]` and
`shuffle = false` split 70/15/15 (spec Scenario B). -/
theorem claim_C3_witness :
    (0 ≤ effTrainFrac c3Params ∧ 0 ≤ effValFrac c3Params ∧
      effTrainFrac c3Params + effValFrac c3Params ≤ 1) ∧
    ((splitDataset c3PairsHundred c3Params id).train.length = 70 ∧
      (splitDataset c3PairsHundred c3Params id).val.length = 15 ∧
      (splitDataset c3PairsHundred c3Params id).test.length = 15) := by
  have htr : (0 : ℚ) ≤ effTrainFrac c3Params := by
    norm_num [effTrainFrac, fracOrDefault, c3Params]
  have hvr : (0 : ℚ) ≤ effValFrac c3Params := by
    norm_num [effValFrac, fracOrDefault, c3Params]
  have hsum : effTrainFrac c3Params + effValFrac c3Params ≤ 1 := by
    norm_num [effTrainFrac, effValFrac, fracOrDefault, c3Params]
  refine ⟨⟨htr, hvr, hsum⟩, ?_⟩
  obtain ⟨h1, h2, h3⟩ :=
    (claim_C3_split_dataset c3PairsHundred c3Params id (fun l => rfl)).2.1
      htr hvr hsum
  rw [h1, h2, h3]
  norm_num [effTrainFrac, effValFrac, fracOrDefault, c3Params,
    c3PairsHundred]
  decide

-- Lemmas for the cloud-mask characterization (C2).

theorem lt_cloudCap_iff (mc : ℚ) (n : ℕ) :
    ((n : ℚ) < mc) ↔ n < cloudCap mc := by
  unfold cloudCap
  constructor
  · intro h
    have h2 : (n : ℤ) < ⌈mc⌉ := Int.lt_ceil.mpr (by exact_mod_cast h)
    omega
  · intro h
    have h2 : (n : ℤ) < ⌈mc⌉ := by omega
    have := Int.lt_ceil.mp h2
    exact_mod_cast this

theorem cloudMaskStepP_fold (mc lo hi : ℚ)
    (l : List (ℕ × ℚ × List (Str × Bool))) (acc : List CloudMask)
    (hacc : acc.length ≤ cloudCap mc) :
    l.foldl (cloudMaskStepP mc lo hi) acc =
      acc ++ ((l.filter (fun ip => decide (lo ≤ ip.2.1 ∧ ip.2.1 ≤ hi))).take
        (cloudCap mc - acc.length)).map
        (fun ip => ⟨ip.1, toFixedRat 4 ip.2.1, ip.2.2⟩) := by
  induction l generalizing acc with
  | nil => simp
  | cons a t ih =>
    simp only [List.foldl_cons, List.filter_cons]
    by_cases hguard : (acc.length : ℚ) < mc
    · have hlt : acc.length < cloudCap mc :=
        (lt_cloudCap_iff mc acc.length).mp hguard
      by_cases hpred : lo ≤ a.2.1 ∧ a.2.1 ≤ hi
      · have hstep : cloudMaskStepP mc lo hi acc a =
            acc ++ [⟨a.1, toFixedRat 4 a.2.1, a.2.2⟩] := by
          unfold cloudMaskStepP
          rw [if_pos hguard, if_pos hpred]
        rw [hstep, ih _ (by simp; omega), decide_eq_true hpred]
        rw [if_pos rfl]
        rw [show cloudCap mc - acc.length =
          (cloudCap mc - (acc.length + 1)) + 1 by omega]
        rw [List.take_succ_cons, List.map_cons]
        simp
      · have hstep : cloudMaskStepP mc lo hi acc a = acc := by
          unfold cloudMaskStepP
          rw [if_pos hguard, if_neg hpred]
        rw [hstep, ih _ hacc, decide_eq_false hpred]
        rw [if_neg (by simp)]
    · have hstep : cloudMaskStepP mc lo hi acc a = acc := by
        unfold cloudMaskStepP
        rw [if_neg hguard]
      have heq : cloudCap mc ≤ acc.length := by
        by_contra hc
        push_neg at hc
        exact hguard ((lt_cloudCap_iff mc acc.length).mpr hc)
      rw [hstep, ih _ hacc]
      rw [show cloudCap mc - acc.length = 0 by omega]
      simp

theorem generateMasks_masks_eq (data : List Row) (p : MaskParams)
    (hne : data ≠ []) :
    (generateMasks data p).masks =
      ⟨landMaskOf data,
        if seaKeysOf data = [] then []
        else (data.enum.map
            (missProfile (rowKeys (data.headD [])) (seaKeysOf data))).foldl
          (cloudMaskStepP (maskCountOf p) (missFracRangeOf p).1
            (missFracRangeOf p).2) []⟩ := by
  unfold generateMasks
  rw [if_neg hne]
  dsimp only
  by_cases hs : seaKeysOf data = []
  · rw [if_pos hs, if_pos hs]
  · rw [if_neg hs, if_neg hs]
    congr 1
    rw [List.foldl_map]
    rfl

theorem generateMasks_cloudMasks_char (data : List Row) (p : MaskParams)
    (hne : data ≠ []) (hsea : seaKeysOf data ≠ []) :
    (generateMasks data p).masks.cloudMasks =
      (((data.enum.map
          (missProfile (rowKeys (data.headD [])) (seaKeysOf data))).filter
            (fun ip => decide ((missFracRangeOf p).1 ≤ ip.2.1 ∧
              ip.2.1 ≤ (missFracRangeOf p).2))).take
        (cloudCap (maskCountOf p))).map
        (fun ip => ⟨ip.1, toFixedRat 4 ip.2.1, ip.2.2⟩) := by
  rw [generateMasks_masks_eq data p hne]
  dsimp only
  rw [if_neg hsea]
  rw [cloudMaskStepP_fold _ _ _ _ [] (by simp)]
  simp

theorem exactMissFrac_bounds (seaKeys : List Str) (row : Row)
    (h : seaKeys ≠ []) :
    0 ≤ exactMissFrac seaKeys row ∧ exactMissFrac seaKeys row ≤ 1 := by
  unfold exactMissFrac
  have hlen : 0 < (seaKeys.length : ℚ) := by
    have : 0 < seaKeys.length := List.length_pos.mpr h
    exact_mod_cast this
  constructor
  · positivity
  · rw [div_le_one hlen]
    have := List.length_filter_le (fun k => isMissing (rowGet row k)) seaKeys
    exact_mod_cast this

theorem toFixedRat_nonneg (d : ℕ) (q : ℚ) (h : 0 ≤ q) :
    0 ≤ toFixedRat d q := by
  unfold toFixedRat jsToFixedInt roundHalfUp
  rw [if_neg (not_lt.mpr h)]
  apply div_nonneg _ (by positivity)
  have : (0 : ℤ) ≤ ⌊q * 10 ^ d + 1/2⌋ := Int.floor_nonneg.mpr (by positivity)
  exact_mod_cast this

theorem toFixedRat_le_one (d : ℕ) (q : ℚ) (h0 : 0 ≤ q) (h1 : q ≤ 1) :
    toFixedRat d q ≤ 1 := by
  unfold toFixedRat jsToFixedInt roundHalfUp
  rw [if_neg (not_lt.mpr h0)]
  rw [div_le_one (by positivity)]
  have hpow : (0 : ℚ) < 10 ^ d := by positivity
  have hlt : q * 10 ^ d + 1/2 < ((10 ^ d + 1 : ℤ) : ℚ) := by
    push_cast
    nlinarith
  have hfl : ⌊q * 10 ^ d + 1/2⌋ < 10 ^ d + 1 := Int.floor_lt.mpr hlt
  have : ⌊q * 10 ^ d + 1/2⌋ ≤ 10 ^ d := by omega
  exact_mod_cast this

theorem all_of_profile_eq {T1 T2 : List Row}
    (hlen : T1.length = T2.length)
    (hmiss : ∀ k j, isMissing (rowGet (T1.getD j []) k) =
      isMissing (rowGet (T2.getD j []) k)) (k : Str) :
    T1.all (fun row => isMissing (rowGet row k)) =
      T2.all (fun row => isMissing (rowGet row k)) := by
  rw [Bool.eq_iff_iff, List.all_eq_true, List.all_eq_true]
  constructor
  · intro h row hrow
    obtain ⟨j, hj, rfl⟩ := List.mem_iff_getElem.mp hrow
    have hj1 : j < T1.length := by omega
    have e2 : T2.getD j [] = T2[j] := List.getD_eq_getElem T2 [] hj
    have e1 : T1.getD j [] = T1[j] := List.getD_eq_getElem T1 [] hj1
    have hm := hmiss k j
    rw [e1, e2] at hm
    rw [← hm]
    exact h _ (List.getElem_mem hj1)
  · intro h row hrow
    obtain ⟨j, hj, rfl⟩ := List.mem_iff_getElem.mp hrow
    have hj2 : j < T2.length := by omega
    have e1 : T1.getD j [] = T1[j] := List.getD_eq_getElem T1 [] hj
    have e2 : T2.getD j [] = T2[j] := List.getD_eq_getElem T2 [] hj2
    have hm := hmiss k j
    rw [e1, e2] at hm
    rw [hm]
    exact h _ (List.getElem_mem hj2)

theorem generateMasks_masks_congr (T1 T2 : List Row) (p : MaskParams)
    (hlen : T1.length = T2.length)
    (hkeys : rowKeys (T1.headD []) = rowKeys (T2.headD []))
    (hmiss : ∀ k j, isMissing (rowGet (T1.getD j []) k) =
      isMissing (rowGet (T2.getD j []) k)) :
    (generateMasks T1 p).masks = (generateMasks T2 p).masks := by
  by_cases h1 : T1 = []
  · have h2 : T2 = [] := by
      rw [h1] at hlen
      exact List.length_eq_zero.mp hlen.symm
    rw [h1, h2]
  · have h2 : T2 ≠ [] := by
      intro hc
      rw [hc] at hlen
      simp only [List.length_nil] at hlen
      exact h1 (List.length_eq_zero.mp hlen)
    have hland : landMaskOf T1 = landMaskOf T2 := by
      unfold landMaskOf computeLandMask
      rw [hkeys]
      apply List.map_congr_left
      intro k _
      rw [all_of_profile_eq hlen hmiss k]
    have hsea : seaKeysOf T1 = seaKeysOf T2 := by
      unfold seaKeysOf
      rw [hkeys, hland]
    have hprof : T1.enum.map
          (missProfile (rowKeys (T1.headD [])) (seaKeysOf T1)) =
        T2.enum.map (missProfile (rowKeys (T2.headD [])) (seaKeysOf T2)) := by
      rw [hkeys, hsea]
      apply List.ext_getElem?
      intro n
      rw [List.getElem?_map, List.getElem?_map, List.getElem?_enum,
        List.getElem?_enum]
      cases he1 : T1[n]? with
      | none =>
        have he2 : T2[n]? = none := by
          rw [List.getElem?_eq_none_iff] at he1 ⊢
          omega
        rw [he2]
      | some r1 =>
        have hn1 : n < T1.length := by
          by_contra hc
          push_neg at hc
          rw [List.getElem?_eq_none_iff.mpr hc] at he1
          exact Option.noConfusion he1
        have hn2 : n < T2.length := by omega
        have he2 : T2[n]? = some T2[n] := List.getElem?_eq_getElem hn2
        have hr1 : r1 = T1[n] := by
          rw [List.getElem?_eq_getElem hn1] at he1
          exact (Option.some.inj he1).symm
        rw [he2, hr1]
        simp only [Option.map_some']
        have e1 : T1.getD n [] = T1[n] := List.getD_eq_getElem T1 [] hn1
        have e2 : T2.getD n [] = T2[n] := List.getD_eq_getElem T2 [] hn2
        have hrowm : ∀ k, isMissing (rowGet T1[n] k) =
            isMissing (rowGet T2[n] k) := by
          intro k
          have := hmiss k n
          rw [e1, e2] at this
          exact this
        have hfilter : (seaKeysOf T2).filter
              (fun k => isMissing (rowGet T1[n] k)) =
            (seaKeysOf T2).filter (fun k => isMissing (rowGet T2[n] k)) :=
          List.filter_congr (fun k _ => hrowm k)
        have hmap2 : (rowKeys (T2.headD [])).map
              (fun k => (k, isMissing (rowGet T1[n] k))) =
            (rowKeys (T2.headD [])).map
              (fun k => (k, isMissing (rowGet T2[n] k))) :=
          List.map_congr_left (fun k _ => by rw [hrowm k])
        unfold missProfile exactMissFrac rowMissMap
        dsimp only
        rw [hfilter, hmap2]
    rw [generateMasks_masks_eq T1 p h1, generateMasks_masks_eq T2 p h2,
      hland, hprof, hsea]

/-- C2 (amended): for a non-empty table with at least one non-land field,
(i) the cloud masks are exactly the first (in row order) at most
`maskCount` rows whose EXACT sea-field missing fraction lies in `[lo, hi]`
inclusive — no deduplication, no sampling; (ii) each emitted mask stores
`missingRatio = Number(exactRatio.toFixed(4))`, the ROUNDED exact ratio
(the exact ratio is the one tested against `[lo, hi]`; the stored value
still lies in `[0, 1]`); (iii) mutating a land field's values in a way that
keeps the field missing in every row changes nothing in the generated
masks. -/
theorem claim_C2_cloud_masks (data : List Row) (p : MaskParams)
    (hne : data ≠ []) (hsea : seaKeysOf data ≠ []) :
    ((generateMasks data p).masks.cloudMasks =
      (((data.enum.map
          (missProfile (rowKeys (data.headD [])) (seaKeysOf data))).filter
            (fun ip => decide ((missFracRangeOf p).1 ≤ ip.2.1 ∧
              ip.2.1 ≤ (missFracRangeOf p).2))).take
        (cloudCap (maskCountOf p))).map
        (fun ip => ⟨ip.1, toFixedRat 4 ip.2.1, ip.2.2⟩)) ∧
    (∀ cm ∈ (generateMasks data p).masks.cloudMasks,
      cm.index < data.length ∧
      cm.missFrac =
        toFixedRat 4 (exactMissFrac (seaKeysOf data) (data.getD cm.index [])) ∧
      (missFracRangeOf p).1 ≤
        exactMissFrac (seaKeysOf data) (data.getD cm.index []) ∧
      exactMissFrac (seaKeysOf data) (data.getD cm.index []) ≤
        (missFracRangeOf p).2 ∧
      0 ≤ cm.missFrac ∧ cm.missFrac ≤ 1) ∧
    (∀ f i v, f ∈ rowKeys (data.headD []) →
      (∀ row ∈ data, isMissing (rowGet row f) = true) →
      isMissing v = true →
      (generateMasks (tableSet data i f v) p).masks =
        (generateMasks data p).masks) := by
  refine ⟨generateMasks_cloudMasks_char data p hne hsea, ?_, ?_⟩
  · intro cm hcm
    rw [generateMasks_cloudMasks_char data p hne hsea] at hcm
    obtain ⟨ip, hip_take, rfl⟩ := List.mem_map.mp hcm
    have hip_filter := List.take_subset _ _ hip_take
    have hpred := (List.mem_filter.mp hip_filter).2
    have hip_map := (List.mem_filter.mp hip_filter).1
    obtain ⟨ir, hir_enum, rfl⟩ := List.mem_map.mp hip_map
    rw [decide_eq_true_eq] at hpred
    have hidx : ir.1 < data.length := List.fst_lt_of_mem_enum hir_enum
    have hrow : data[ir.1]? = some ir.2 :=
      List.mem_enum_iff_getElem?.mp hir_enum
    have hgetD : data.getD ir.1 [] = ir.2 := by
      rw [List.getD_eq_getElem?_getD, hrow]
      rfl
    have hbounds := exactMissFrac_bounds (seaKeysOf data) ir.2 hsea
    unfold missProfile at hpred ⊢
    dsimp only at hpred ⊢
    rw [hgetD]
    exact ⟨hidx, rfl, hpred.1, hpred.2,
      toFixedRat_nonneg 4 _ hbounds.1,
      toFixedRat_le_one 4 _ hbounds.1 hbounds.2⟩
  · intro f i v hf hall hv
    apply generateMasks_masks_congr
    · exact tableSet_length data i f v
    · rw [tableSet_headD data i f v hne]
      by_cases h0 : 0 = i
      · rw [if_pos h0, rowKeys_setKey_mem _ _ _ hf]
      · rw [if_neg h0]
    · intro k j
      by_cases hj : j < data.length
      · have hTj : (tableSet data i f v).getD j [] =
            (if j = i then setKey (data.getD j []) f v
             else data.getD j []) := by
          rw [List.getD_eq_getElem?_getD, tableSet_getElem?,
            List.getElem?_eq_getElem hj]
          simp only [Option.map_some', Option.getD_some]
          rw [List.getD_eq_getElem data [] hj]
        rw [hTj]
        by_cases hji : j = i
        · rw [if_pos hji]
          by_cases hkf : k = f
          · subst hkf
            rw [rowGet_setKey_self, hv]
            have e : data.getD j [] = data[j] := List.getD_eq_getElem data [] hj
            have hmem : data.getD j [] ∈ data := by
              rw [e]
              exact List.getElem_mem hj
            exact (hall _ hmem).symm
          · rw [rowGet_setKey_ne _ _ _ _ hkf]
        · rw [if_neg hji]
      · have h1 : (tableSet data i f v).getD j [] = [] := by
          rw [List.getD_eq_getElem?_getD,
            List.getElem?_eq_none_iff.mpr (by rw [tableSet_length]; omega)]
          rfl
        have h2 : data.getD j [] = [] := by
          rw [List.getD_eq_getElem?_getD,
            List.getElem?_eq_none_iff.mpr (by omega)]
          rfl
        rw [h1, h2]

/-- C2 (counterexample): (a) the STORED `missingRatio` is not the exact
ratio: with three sea fields and one missing, the exact ratio is `1/3` but
the emitted mask stores `Number((1/3).toFixed(4)) = 0.3333 ≠ 1/3`.
(b) Mutating a land field's values is NOT always ratio-preserving: turning
the all-missing field `a` non-missing in one row de-lands it, which changes
the set of sea fields and with it an emitted ratio (`1/2` becomes
`0.6667`). -/
theorem claim_C2_counterexample :
    ((generateMasks c2RoundData defaultMaskParams).masks.cloudMasks.map
        CloudMask.missFrac = [3333/10000] ∧
      exactMissFrac (seaKeysOf c2RoundData) (c2RoundData.getD 0 []) = 1/3 ∧
      (3333/10000 : ℚ) ≠ 1/3) ∧
    (lookupBool (generateMasks c2MutData c2RangeParams).masks.landMask
        ['a'] = true ∧
      (generateMasks (tableSet c2MutData 1 ['a'] (JSValue.num 5))
          c2RangeParams).masks.cloudMasks.map CloudMask.missFrac =
        [6667/10000, 0] ∧
      (generateMasks c2MutData c2RangeParams).masks.cloudMasks.map
          CloudMask.missFrac = [1/2, 0]) := by
  refine ⟨⟨?_, ?_, by norm_num⟩, ⟨?_, ?_, ?_⟩⟩
  · simp +decide only [generateMasks, landMaskOf, seaKeysOf, computeLandMask,
      lookupBool, rowGet, rowKeys, isMissing, cloudMaskStep, exactMissFrac,
      rowMissMap, toFixedRat, jsToFixedInt, roundHalfUp, missFracRangeOf,
      maskCountOf, List.enum, List.enumFrom, c2RoundData, defaultMaskParams,
      List.find?, List.filter, List.map, List.foldl, List.all, List.length,
      Option.getD]
    norm_num
  · simp +decide only [exactMissFrac, seaKeysOf, landMaskOf, computeLandMask,
      lookupBool, rowGet, rowKeys, isMissing, c2RoundData, List.find?,
      List.filter, List.map, List.all, List.length, List.getD, Option.getD]
    norm_num
  · simp +decide only [generateMasks, landMaskOf, seaKeysOf, computeLandMask,
      lookupBool, rowGet, rowKeys, isMissing, c2MutData, c2RangeParams,
      List.find?, List.filter, List.map, List.all, List.length]
  · simp +decide only [generateMasks, landMaskOf, seaKeysOf, computeLandMask,
      lookupBool, rowGet, rowKeys, isMissing, cloudMaskStep, exactMissFrac,
      rowMissMap, toFixedRat, jsToFixedInt, roundHalfUp, missFracRangeOf,
      maskCountOf, List.enum, List.enumFrom, c2MutData, c2RangeParams,
      tableSet, setKey, List.find?, List.filter, List.map, List.foldl,
      List.all, List.length, List.any, Option.getD]
    norm_num
  · simp +decide only [generateMasks, landMaskOf, seaKeysOf, computeLandMask,
      lookupBool, rowGet, rowKeys, isMissing, cloudMaskStep, exactMissFrac,
      rowMissMap, toFixedRat, jsToFixedInt, roundHalfUp, missFracRangeOf,
      maskCountOf, List.enum, List.enumFrom, c2MutData, c2RangeParams,
      List.find?, List.filter, List.map, List.foldl, List.all, List.length,
      Option.getD]
    norm_num

/-- C2 witness: the amended claim applied at a concrete table — mutating
the land field `a` of `c2MutData` to another missing value (`null`) leaves
the generated masks unchanged. -/
theorem claim_C2_witness :
    (c2MutData ≠ [] ∧ seaKeysOf c2MutData ≠ [] ∧
      ['a'] ∈ rowKeys (c2MutData.headD []) ∧
      (∀ row ∈ c2MutData, isMissing (rowGet row ['a']) = true) ∧
      isMissing JSValue.null = true) ∧
      (generateMasks (tableSet c2MutData 1 ['a'] JSValue.null)
          c2RangeParams).masks =
        (generateMasks c2MutData c2RangeParams).masks :=
  ⟨⟨by decide, by decide, by decide, by decide, by decide⟩,
    (claim_C2_cloud_masks c2MutData c2RangeParams (by decide)
      (by decide)).2.2 ['a'] 1 JSValue.null (by decide) (by decide)
      (by decide)⟩

-- Digit rendering and parsing (for the CSV/JSON round trip).

theorem digitChar_isDigit (d : ℕ) (h : d < 10) :
    isDigitChar (digitChar d) = true := by
  interval_cases d <;> decide

theorem digitVal_digitChar (d : ℕ) (h : d < 10) : digitVal (digitChar d) = d := by
  interval_cases d <;> decide

theorem isDigitChar_toNat {c : Char} (h : isDigitChar c = true) :
    48 ≤ c.toNat ∧ c.toNat ≤ 57 := by
  unfold isDigitChar at h
  exact of_decide_eq_true h

theorem digit_ne_of_toNat {c c' : Char} (h : isDigitChar c = true)
    (h2 : c'.toNat < 48 ∨ 57 < c'.toNat) : c ≠ c' := by
  intro hc
  obtain ⟨h3, h4⟩ := isDigitChar_toNat h
  rw [hc] at h3 h4
  omega

theorem isJsWs_of_digit {c : Char} (h : isDigitChar c = true) :
    isJsWs c = false := by
  obtain ⟨h1, h2⟩ := isDigitChar_toNat h
  unfold isJsWs
  have hne : ∀ c' : Char, (c'.toNat < 48 ∨ 57 < c'.toNat) →
      (decide (c = c') = false) := by
    intro c' hc'
    rw [decide_eq_false_iff_not]
    intro hcc
    rw [hcc] at h1 h2
    omega
  have ht : ∀ m : ℕ, (m < 48 ∨ 57 < m) → (decide (c.toNat = m) = false) := by
    intro m hm
    rw [decide_eq_false_iff_not]
    omega
  rw [hne ' ' (by decide), hne '\t' (by decide), hne '\n' (by decide),
    hne '\r' (by decide), ht 11 (by norm_num), ht 12 (by norm_num),
    ht 160 (by norm_num)]
  rfl

theorem renderNat_digits (n : ℕ) : ∀ c ∈ renderNat n, isDigitChar c = true := by
  intro c hc
  unfold renderNat at hc
  by_cases hn : n = 0
  · rw [if_pos hn] at hc
    simp only [List.mem_singleton] at hc
    rw [hc]
    decide
  · rw [if_neg hn] at hc
    obtain ⟨d, hd, rfl⟩ := List.mem_map.mp hc
    rw [List.mem_reverse] at hd
    exact digitChar_isDigit d (Nat.digits_lt_base (by norm_num) hd)

theorem renderNat_ne_nil (n : ℕ) : renderNat n ≠ [] := by
  unfold renderNat
  by_cases hn : n = 0
  · rw [if_pos hn]
    simp
  · rw [if_neg hn]
    simp only [ne_eq, List.map_eq_nil_iff, List.reverse_eq_nil_iff]
    exact Nat.digits_ne_nil_iff_ne_zero.mpr hn

theorem digits_length_le_of_lt_pow {n d : ℕ} (h : n < 10 ^ d) :
    (Nat.digits 10 n).length ≤ d := by
  by_cases hn : n = 0
  · simp [hn]
  · by_contra hc
    push_neg at hc
    have h1 := Nat.base_pow_length_digits_le 10 n (by norm_num) hn
    have h2 : (10 : ℕ) ^ (d + 1) ≤ 10 ^ (Nat.digits 10 n).length :=
      Nat.pow_le_pow_right (by norm_num) hc
    have h3 : (10 : ℕ) ^ (d + 1) ≤ 10 * n := le_trans h2 h1
    rw [pow_succ] at h3
    omega

theorem padDigits_length {d n : ℕ} (h : n < 10 ^ d) :
    (padDigits d n).length = d := by
  unfold padDigits
  have := digits_length_le_of_lt_pow h
  simp only [List.length_reverse, List.length_append, List.length_replicate]
  omega

theorem padDigits_lt (d n : ℕ) : ∀ v ∈ padDigits d n, v < 10 := by
  intro v hv
  unfold padDigits at hv
  rw [List.mem_reverse, List.mem_append] at hv
  rcases hv with h | h
  · exact Nat.digits_lt_base (by norm_num) h
  · rw [List.eq_of_mem_replicate h]
    norm_num

theorem digitsToNat_snoc (l : List ℕ) (d : ℕ) :
    digitsToNat (l ++ [d]) = 10 * digitsToNat l + d := by
  unfold digitsToNat
  rw [List.foldl_append]
  simp
  omega

theorem digitsToNat_eq_ofDigits (l : List ℕ) :
    digitsToNat l = Nat.ofDigits 10 l.reverse := by
  induction l using List.reverseRecOn with
  | nil => rfl
  | append_singleton l d ih =>
    rw [digitsToNat_snoc, List.reverse_append]
    simp only [List.reverse_cons, List.reverse_nil, List.nil_append,
      List.singleton_append]
    rw [Nat.ofDigits_cons, ih]
    push_cast
    ring

theorem ofDigits_replicate_zero (k : ℕ) :
    Nat.ofDigits 10 (List.replicate k 0) = 0 := by
  induction k with
  | zero => rfl
  | succ k ih =>
    rw [List.replicate_succ, Nat.ofDigits_cons, ih]

theorem digitsToNat_padDigits {d n : ℕ} (h : n < 10 ^ d) :
    digitsToNat (padDigits d n) = n := by
  rw [digitsToNat_eq_ofDigits]
  unfold padDigits
  rw [List.reverse_reverse, Nat.ofDigits_append, Nat.ofDigits_digits,
    ofDigits_replicate_zero]
  simp

theorem digitsToNat_renderNat_map (n : ℕ) :
    digitsToNat ((renderNat n).map digitVal) = n := by
  unfold renderNat
  by_cases hn : n = 0
  · rw [if_pos hn, hn]
    decide
  · rw [if_neg hn, List.map_map]
    have hmap : ((Nat.digits 10 n).reverse).map (digitVal ∘ digitChar) =
        ((Nat.digits 10 n).reverse).map id := by
      apply List.map_congr_left
      intro d hd
      rw [List.mem_reverse] at hd
      simp only [Function.comp_apply, id_eq]
      exact digitVal_digitChar d (Nat.digits_lt_base (by norm_num) hd)
    rw [hmap, List.map_id, digitsToNat_eq_ofDigits, List.reverse_reverse,
      Nat.ofDigits_digits]

theorem takeDigits_append (cs : Str) (rest : Str)
    (h : ∀ c ∈ cs, isDigitChar c = true)
    (h2 : ∀ c ∈ rest.head?, isDigitChar c = false) :
    takeDigits (cs ++ rest) = (cs.map digitVal, rest) := by
  induction cs with
  | nil =>
    simp only [List.nil_append, List.map_nil]
    cases rest with
    | nil => rfl
    | cons c r =>
      unfold takeDigits
      rw [if_neg]
      intro hc
      have := h2 c rfl
      rw [hc] at this
      exact Bool.noConfusion this
  | cons c t ih =>
    simp only [List.cons_append, List.map_cons]
    unfold takeDigits
    rw [if_pos (h c (List.mem_cons_self c t))]
    rw [ih (fun c' hc' => h c' (List.mem_cons_of_mem c hc'))]

theorem digitsToNat_foldl_acc (l : List ℕ) : ∀ (a : ℕ),
    l.foldl (fun a d => a * 10 + d) a = a * 10 ^ l.length + digitsToNat l := by
  induction l with
  | nil => intro a; simp [digitsToNat]
  | cons x r ih =>
    intro a
    unfold digitsToNat
    simp only [List.foldl_cons, List.length_cons]
    rw [ih (a * 10 + x), ih (0 * 10 + x)]
    ring

theorem digitsToNat_cons (d : ℕ) (t : List ℕ) :
    digitsToNat (d :: t) = d * 10 ^ t.length + digitsToNat t := by
  have h := digitsToNat_foldl_acc t d
  unfold digitsToNat at h ⊢
  simp only [List.foldl_cons]
  simpa using h

theorem fracVal_eq (l : List ℕ) :
    fracVal l = (digitsToNat l : ℚ) / 10 ^ l.length := by
  induction l with
  | nil => simp [fracVal, digitsToNat]
  | cons d t ih =>
    have h10 : ((10:ℚ))^t.length ≠ 0 := by positivity
    rw [show fracVal (d :: t) = ((d : ℚ) + fracVal t) / 10 from rfl, ih,
      digitsToNat_cons, List.length_cons]
    rw [show (d:ℚ) + (digitsToNat t : ℚ)/10^t.length
        = ((d:ℚ)*10^t.length + (digitsToNat t : ℚ))/10^t.length by
      field_simp]
    rw [div_div, ← pow_succ]
    push_cast
    ring_nf

theorem fracVal_snoc_zero (l : List ℕ) : fracVal (l ++ [0]) = fracVal l := by
  unfold fracVal
  rw [List.foldr_append]
  norm_num

theorem fracVal_strip (l : List ℕ) :
    fracVal (stripTrailingZeroVals l) = fracVal l := by
  induction l using List.reverseRecOn with
  | nil => rfl
  | append_singleton l d ih =>
    unfold stripTrailingZeroVals
    by_cases hd : d = 0
    · subst hd
      rw [List.reverse_append]
      simp only [List.reverse_cons, List.reverse_nil, List.nil_append,
        List.singleton_append, List.dropWhile_cons]
      rw [if_pos (by simp)]
      rw [fracVal_snoc_zero]
      exact ih
    · rw [List.reverse_append]
      simp only [List.reverse_cons, List.reverse_nil, List.nil_append,
        List.singleton_append, List.dropWhile_cons]
      rw [if_neg (by simp [hd])]
      simp

theorem floor_int_add_half (n : ℤ) : ⌊(n : ℚ) + 1/2⌋ = n := by
  rw [Int.floor_eq_iff]
  constructor
  · linarith
  · push_cast
    linarith

theorem jsToFixedInt_exact (d : ℕ) (q : ℚ) (h : (q * 10 ^ d).den = 1) :
    (jsToFixedInt d q : ℚ) = q * 10 ^ d := by
  have hz : (((q * 10 ^ d).num : ℤ) : ℚ) = q * 10 ^ d :=
    (Rat.den_eq_one_iff _).mp h
  unfold jsToFixedInt roundHalfUp
  by_cases hq : q < 0
  · rw [if_pos hq]
    have : -q * 10 ^ d = ((-(q * 10 ^ d).num : ℤ) : ℚ) := by
      push_cast
      rw [hz]
      ring
    rw [this, floor_int_add_half]
    push_cast
    rw [hz]
    ring
  · rw [if_neg hq]
    have : q * 10 ^ d = (((q * 10 ^ d).num : ℤ) : ℚ) := hz.symm
    rw [this, floor_int_add_half]

theorem jsTrim_eq_self {s : Str} (h : ∀ c ∈ s, isJsWs c = false) :
    jsTrim s = s := by
  unfold jsTrim
  have h1 : s.dropWhile isJsWs = s := by
    cases s with
    | nil => rfl
    | cons c t =>
      rw [List.dropWhile_cons, if_neg]
      rw [h c (List.mem_cons_self c t)]
      simp
  rw [h1]
  have h2 : s.reverse.dropWhile isJsWs = s.reverse := by
    cases hs : s.reverse with
    | nil => rfl
    | cons c t =>
      rw [List.dropWhile_cons, if_neg]
      have hc : c ∈ s := by
        rw [← List.mem_reverse, hs]
        exact List.mem_cons_self c t
      rw [h c hc]
      simp
  rw [h2, List.reverse_reverse]

theorem renderNatPad_digits (d n : ℕ) :
    ∀ c ∈ renderNatPad d n, isDigitChar c = true := by
  intro c hc
  unfold renderNatPad at hc
  obtain ⟨v, hv, rfl⟩ := List.mem_map.mp hc
  exact digitChar_isDigit v (padDigits_lt d n v hv)

theorem renderNatPad_map_val (d n : ℕ) :
    (renderNatPad d n).map digitVal = padDigits d n := by
  unfold renderNatPad
  rw [List.map_map]
  have : (padDigits d n).map (digitVal ∘ digitChar) = (padDigits d n).map id := by
    apply List.map_congr_left
    intro v hv
    exact digitVal_digitChar v (padDigits_lt d n v hv)
  rw [this, List.map_id]

theorem renderNat_map_val (n : ℕ) :
    digitsToNat ((renderNat n).map digitVal) = n := digitsToNat_renderNat_map n

theorem jsToFixedStr_chars (d : ℕ) (q : ℚ) :
    ∀ c ∈ jsToFixedStr d q, isDigitChar c = true ∨ c = '-' ∨ c = '.' := by
  intro c hc
  unfold jsToFixedStr at hc
  rw [List.append_assoc] at hc
  rcases List.mem_append.mp hc with hs | hrest
  · right
    left
    split at hs
    · simpa using hs
    · simp at hs
  · rcases List.mem_append.mp hrest with hr | ht
    · exact Or.inl (renderNat_digits _ c hr)
    · split at ht
      · simp at ht
      · rcases List.mem_cons.mp ht with hdot | hpad
        · exact Or.inr (Or.inr hdot)
        · exact Or.inl (renderNatPad_digits _ _ c hpad)

theorem jsToFixedStr_no_ws (d : ℕ) (q : ℚ) :
    ∀ c ∈ jsToFixedStr d q, isJsWs c = false := by
  intro c hc
  rcases jsToFixedStr_chars d q c hc with h | h | h
  · exact isJsWs_of_digit h
  · subst h; decide
  · subst h; decide

theorem jsToFixedStr_no_char (d : ℕ) (q : ℚ) {c : Char}
    (h1 : isDigitChar c = false) (h2 : c ≠ '-') (h3 : c ≠ '.') :
    c ∉ jsToFixedStr d q := by
  intro hc
  rcases jsToFixedStr_chars d q c hc with h | h | h
  · rw [h1] at h
    exact Bool.noConfusion h
  · exact h2 h
  · exact h3 h

theorem hasInfinityPrefix_cons_digit {c : Char} {r : Str}
    (h : isDigitChar c = true) : hasInfinityPrefix (c :: r) = false := by
  have hm : c ≠ '-' := digit_ne_of_toNat h (by left; decide)
  have hp : c ≠ '+' := digit_ne_of_toNat h (by left; decide)
  have hne : c ≠ 'I' := digit_ne_of_toNat h (by right; decide)
  have hI : ('I' == c) = false := beq_eq_false_iff_ne.mpr (fun hc => hne hc.symm)
  unfold hasInfinityPrefix
  split
  · rename_i r' heq
    rw [List.cons_eq_cons] at heq
    exact absurd heq.1 hm
  · rename_i r' heq
    rw [List.cons_eq_cons] at heq
    exact absurd heq.1 hp
  · show ("Infinity".toList.isPrefixOf (c :: r)) = false
    rw [show "Infinity".toList = 'I' :: "nfinity".toList from rfl]
    simp only [List.isPrefixOf]
    rw [hI]
    simp

theorem jsToFixedStr_four (q : ℚ) :
    jsToFixedStr 4 q =
      (if jsToFixedInt 4 q < 0 then ['-'] else []) ++
        renderNat ((jsToFixedInt 4 q).natAbs / 10 ^ 4) ++
        ('.' :: renderNatPad 4 ((jsToFixedInt 4 q).natAbs % 10 ^ 4)) := by
  unfold jsToFixedStr
  norm_num

theorem takeDigits_all_digits (cs : Str) (h : ∀ c ∈ cs, isDigitChar c = true) :
    takeDigits cs = (cs.map digitVal, []) := by
  have h2 : ∀ c ∈ (List.nil (α := Char)).head?, isDigitChar c = false := by
    intro c hc
    simp at hc
  have := takeDigits_append cs [] h h2
  simpa using this

theorem takeDigits_renderNat_dot (np : ℕ) (rest : Str) :
    takeDigits (renderNat np ++ '.' :: rest) =
      ((renderNat np).map digitVal, '.' :: rest) := by
  apply takeDigits_append _ _ (renderNat_digits np)
  intro c hc
  simp at hc
  subst hc
  decide

theorem fracVal_padDigits {fp : ℕ} (h : fp < 10 ^ 4) :
    fracVal (padDigits 4 fp) = (fp : ℚ) / 10 ^ 4 := by
  rw [fracVal_eq, digitsToNat_padDigits h, padDigits_length h]

theorem renderNat_map_ne_nil (n : ℕ) : (renderNat n).map digitVal ≠ [] := by
  intro hc
  exact renderNat_ne_nil n (List.map_eq_nil.mp hc)

theorem splitSign_not_sign {c : Char} {r : Str} (hm : c ≠ '-') (hp : c ≠ '+') :
    splitSign (c :: r) = (1, c :: r) := by
  unfold splitSign
  split
  · rename_i r' heq
    rw [List.cons_eq_cons] at heq
    exact absurd heq.1 hm
  · rename_i r' heq
    rw [List.cons_eq_cons] at heq
    exact absurd heq.1 hp
  · rfl

theorem splitMinus_not_minus {c : Char} {r : Str} (hm : c ≠ '-') :
    splitMinus (c :: r) = (1, c :: r) := by
  unfold splitMinus
  split
  · rename_i r' heq
    rw [List.cons_eq_cons] at heq
    exact absurd heq.1 hm
  · rfl

theorem jsParseFloat_dash (r : Str) :
    jsParseFloat ('-' :: r) =
      (let ip := takeDigits r
       match ip.2 with
       | '.' :: r2 =>
         let fp := takeDigits r2
         if ip.1 = [] ∧ fp.1 = [] then none
         else some ((-1 : ℚ) * ((digitsToNat ip.1 : ℚ) + fracVal fp.1))
       | _ => if ip.1 = [] then none else some ((-1 : ℚ) * (digitsToNat ip.1 : ℚ))) := rfl

theorem jsParseFloat_digit (c : Char) (r : Str) (h : isDigitChar c = true) :
    jsParseFloat (c :: r) =
      (let ip := takeDigits (c :: r)
       match ip.2 with
       | '.' :: r2 =>
         let fp := takeDigits r2
         if ip.1 = [] ∧ fp.1 = [] then none
         else some ((1 : ℚ) * ((digitsToNat ip.1 : ℚ) + fracVal fp.1))
       | _ => if ip.1 = [] then none else some ((1 : ℚ) * (digitsToNat ip.1 : ℚ))) := by
  have hm : c ≠ '-' := digit_ne_of_toNat h (by left; decide)
  have hp : c ≠ '+' := digit_ne_of_toNat h (by left; decide)
  unfold jsParseFloat
  rw [splitSign_not_sign hm hp]

theorem natAbs_div_frac (m : ℤ) :
    ((digitsToNat ((renderNat (m.natAbs / 10 ^ 4)).map digitVal) : ℚ)
      + fracVal ((renderNatPad 4 (m.natAbs % 10 ^ 4)).map digitVal))
      = (m.natAbs : ℚ) / 10 ^ 4 := by
  have hfp : m.natAbs % 10 ^ 4 < 10 ^ 4 := Nat.mod_lt _ (by norm_num)
  have hdm : m.natAbs / 10 ^ 4 * 10 ^ 4 + m.natAbs % 10 ^ 4 = m.natAbs :=
    Nat.div_add_mod' _ _
  rw [digitsToNat_renderNat_map, renderNatPad_map_val, fracVal_padDigits hfp]
  rw [eq_div_iff (by positivity : ((10:ℚ)^4) ≠ 0), add_mul,
    div_mul_cancel₀ _ (by positivity : ((10:ℚ)^4) ≠ 0)]
  exact_mod_cast hdm

theorem jsParseFloat_jsToFixedStr (q : ℚ) (h : (q * 10 ^ 4).den = 1) :
    jsParseFloat (jsToFixedStr 4 q) = some q := by
  have hn : ((jsToFixedInt 4 q : ℤ) : ℚ) = q * 10 ^ 4 := jsToFixedInt_exact 4 q h
  have htd : takeDigits (renderNat ((jsToFixedInt 4 q).natAbs / 10 ^ 4) ++
      '.' :: renderNatPad 4 ((jsToFixedInt 4 q).natAbs % 10 ^ 4)) =
      ((renderNat ((jsToFixedInt 4 q).natAbs / 10 ^ 4)).map digitVal,
        '.' :: renderNatPad 4 ((jsToFixedInt 4 q).natAbs % 10 ^ 4)) :=
    takeDigits_renderNat_dot _ _
  have htf : takeDigits (renderNatPad 4 ((jsToFixedInt 4 q).natAbs % 10 ^ 4)) =
      ((renderNatPad 4 ((jsToFixedInt 4 q).natAbs % 10 ^ 4)).map digitVal, []) :=
    takeDigits_all_digits _ (renderNatPad_digits _ _)
  rw [jsToFixedStr_four]
  by_cases hneg : jsToFixedInt 4 q < 0
  · rw [if_pos hneg, List.append_assoc, List.singleton_append]
    rw [jsParseFloat_dash]
    simp only [htd, htf]
    rw [if_neg (fun hand => renderNat_map_ne_nil _ hand.1)]
    rw [natAbs_div_frac]
    rw [Int.cast_natAbs, abs_of_neg hneg]
    push_cast
    rw [hn]
    congr 1
    field_simp
  · rw [if_neg hneg, List.nil_append]
    cases hr : renderNat ((jsToFixedInt 4 q).natAbs / 10 ^ 4) with
    | nil => exact absurd hr (renderNat_ne_nil _)
    | cons c t =>
      have hc : isDigitChar c = true := by
        apply renderNat_digits ((jsToFixedInt 4 q).natAbs / 10 ^ 4)
        rw [hr]
        exact List.mem_cons_self c t
      rw [List.cons_append]
      rw [jsParseFloat_digit c _ hc]
      rw [← List.cons_append, ← hr]
      simp only [htd, htf]
      rw [if_neg (fun hand => renderNat_map_ne_nil _ hand.1)]
      rw [natAbs_div_frac]
      rw [Int.cast_natAbs, abs_of_nonneg (not_lt.mp hneg)]
      push_cast
      rw [hn]
      congr 1
      field_simp

theorem head_dropWhile_false (p : Char → Bool) (l : Str) :
    ∀ c ∈ (l.dropWhile p).head?, p c = false := by
  intro c hc
  induction l with
  | nil => simp [List.dropWhile] at hc
  | cons a t ih =>
    rw [List.dropWhile_cons] at hc
    by_cases hpa : p a = true
    · rw [if_pos hpa] at hc
      exact ih hc
    · rw [if_neg hpa] at hc
      have ha : a = c := by simpa using hc
      subst ha
      exact Bool.eq_false_iff.mpr hpa

theorem jsTrim_length_le (s : Str) :
    (jsTrim s).length ≤ (s.dropWhile isJsWs).length := by
  unfold jsTrim
  rw [List.length_reverse]
  calc ((s.dropWhile isJsWs).reverse.dropWhile isJsWs).length
      ≤ (s.dropWhile isJsWs).reverse.length :=
        (List.dropWhile_suffix isJsWs).length_le
    _ = (s.dropWhile isJsWs).length := List.length_reverse _

theorem jsTrim_eq_self_of_ends {s : Str}
    (h1 : ∀ c ∈ s.head?, isJsWs c = false)
    (h2 : ∀ c ∈ s.getLast?, isJsWs c = false) : jsTrim s = s := by
  unfold jsTrim
  have hd : s.dropWhile isJsWs = s := by
    cases s with
    | nil => rfl
    | cons c t =>
      rw [List.dropWhile_cons,
        if_neg (by rw [h1 c (Option.mem_def.mpr rfl)]; simp)]
  rw [hd]
  have hr : s.reverse.dropWhile isJsWs = s.reverse := by
    cases hs : s.reverse with
    | nil => rfl
    | cons c t =>
      have hc : s.getLast? = some c := by
        rw [← List.head?_reverse, hs]
        rfl
      rw [List.dropWhile_cons,
        if_neg (by rw [h2 c (Option.mem_def.mpr hc)]; simp)]
  rw [hr, List.reverse_reverse]

theorem head_not_ws_of_trimmed {s : Str} (h : jsTrim s = s) :
    ∀ c ∈ s.head?, isJsWs c = false := by
  intro c hc
  cases s with
  | nil => simp at hc
  | cons a t =>
    have ha : a = c := by simpa using hc
    subst ha
    by_contra hws
    rw [Bool.not_eq_false] at hws
    have hlt : (jsTrim (a :: t)).length < (a :: t).length := by
      calc (jsTrim (a :: t)).length
          ≤ ((a :: t).dropWhile isJsWs).length := jsTrim_length_le _
        _ = (t.dropWhile isJsWs).length := by rw [List.dropWhile_cons, if_pos hws]
        _ ≤ t.length := (List.dropWhile_suffix isJsWs).length_le
        _ < (a :: t).length := by simp
    rw [h] at hlt
    exact lt_irrefl _ hlt

theorem getLast_not_ws_of_trimmed {s : Str} (h : jsTrim s = s) :
    ∀ c ∈ s.getLast?, isJsWs c = false := by
  intro c hc
  have hrev : s.reverse = (s.dropWhile isJsWs).reverse.dropWhile isJsWs := by
    conv_lhs => rw [← h]
    unfold jsTrim
    rw [List.reverse_reverse]
  have hc' : c ∈ ((s.dropWhile isJsWs).reverse.dropWhile isJsWs).head? := by
    rw [← hrev, List.head?_reverse]
    exact hc
  exact head_dropWhile_false isJsWs _ c hc'

theorem mem_intersperse_sep {α : Type} {sep : List α} {l : List α} :
    ∀ {ls : List (List α)}, l ∈ List.intersperse sep ls → l = sep ∨ l ∈ ls := by
  intro ls
  induction ls with
  | nil => intro h; simp [List.intersperse] at h
  | cons a t ih =>
    intro h
    cases t with
    | nil =>
      simp [List.intersperse] at h
      right
      simp [h]
    | cons b t2 =>
      rw [List.intersperse_cons_cons] at h
      rcases List.mem_cons.mp h with h1 | h2
      · right
        rw [h1]
        exact List.mem_cons_self _ _
      · rcases List.mem_cons.mp h2 with h3 | h4
        · left
          exact h3
        · rcases ih h4 with h5 | h6
          · left
            exact h5
          · right
            exact List.mem_cons_of_mem _ h6

theorem mem_intercalate {α : Type} {sep : List α} {ls : List (List α)} {c : α}
    (h : c ∈ List.intercalate sep ls) : c ∈ sep ∨ ∃ l ∈ ls, c ∈ l := by
  unfold List.intercalate at h
  rw [List.mem_flatten] at h
  obtain ⟨l, hl, hcl⟩ := h
  rcases mem_intersperse_sep hl with h1 | h2
  · left
    rw [← h1]
    exact hcl
  · right
    exact ⟨l, h2, hcl⟩

theorem intercalate_cons_of_ne {α : Type} (sep b : List α) {ls : List (List α)}
    (h : ls ≠ []) :
    List.intercalate sep (b :: ls) = b ++ sep ++ List.intercalate sep ls := by
  cases ls with
  | nil => exact absurd rfl h
  | cons c t =>
    unfold List.intercalate
    rw [List.intersperse_cons_cons]
    simp [List.append_assoc]

theorem intercalate_cons_prefix {α : Type} (sep : List α) (a : List α)
    (t : List (List α)) :
    ∃ R, List.intercalate sep (a :: t) = a ++ R := by
  cases t with
  | nil => exact ⟨[], by simp [List.intercalate, List.intersperse]⟩
  | cons b t2 =>
    refine ⟨sep ++ List.intercalate sep (b :: t2), ?_⟩
    rw [intercalate_cons_of_ne sep a (by simp), List.append_assoc]

theorem intercalate_snoc_suffix {α : Type} (sep : List α) (t : List (List α))
    (a : List α) :
    ∃ R, List.intercalate sep (t ++ [a]) = R ++ a := by
  induction t with
  | nil => exact ⟨[], by simp [List.intercalate, List.intersperse]⟩
  | cons b t2 ih =>
    obtain ⟨R, hR⟩ := ih
    refine ⟨b ++ sep ++ R, ?_⟩
    rw [List.cons_append, intercalate_cons_of_ne sep b (by simp), hR]
    simp [List.append_assoc]

theorem rowGet_cons (a : Str × JSValue) (t : Row) (k : Str) :
    rowGet (a :: t) k = if a.1 = k then a.2 else rowGet t k := by
  unfold rowGet
  by_cases h : a.1 = k
  · simp [List.find?, h]
  · simp only [List.find?, decide_eq_false h]
    rw [if_neg h]

theorem rowGet_mem {r : Row} {k : Str} (h : k ∈ rowKeys r) :
    ∃ p, p ∈ r ∧ p.1 = k ∧ rowGet r k = p.2 := by
  induction r with
  | nil => simp [rowKeys] at h
  | cons a t ih =>
    rw [rowGet_cons]
    by_cases hk : a.1 = k
    · exact ⟨a, List.mem_cons_self a t, hk, by rw [if_pos hk]⟩
    · have h2 : k ∈ rowKeys t := by
        unfold rowKeys at h
        rw [List.map_cons] at h
        rcases List.mem_cons.mp h with h1 | h2
        · exact absurd h1.symm hk
        · exact h2
      obtain ⟨p, hp, hpk, hrg⟩ := ih h2
      exact ⟨p, List.mem_cons_of_mem a hp, hpk, by rw [if_neg hk]; exact hrg⟩

theorem map_rowGet_self (r : Row) (hnd : (rowKeys r).Nodup) :
    (rowKeys r).map (fun k => (k, rowGet r k)) = r := by
  induction r with
  | nil => rfl
  | cons a t ih =>
    have hkeys : rowKeys (a :: t) = a.1 :: rowKeys t := rfl
    rw [hkeys] at hnd ⊢
    obtain ⟨hna, hndt⟩ := List.nodup_cons.mp hnd
    rw [List.map_cons]
    congr 1
    · rw [rowGet_cons, if_pos rfl]
    · have hcong : (rowKeys t).map (fun k => (k, rowGet (a :: t) k))
          = (rowKeys t).map (fun k => (k, rowGet t k)) := by
        apply List.map_congr_left
        intro k hk
        rw [rowGet_cons, if_neg (fun hc => hna (by rw [hc]; exact hk))]
      rw [hcong]
      exact ih hndt

theorem csvSimpleString_spec {s : Str} (h : csvSimpleString s = true) :
    s ≠ [] ∧ jsTrim s = s ∧ ',' ∉ s ∧ '\n' ∉ s ∧
      jsParseFloat s = none ∧ hasInfinityPrefix s = false := by
  unfold csvSimpleString at h
  simp only [Bool.and_eq_true, Bool.not_eq_true', decide_eq_true_eq,
    decide_eq_false_iff_not, Option.isNone_iff_eq_none] at h
  exact ⟨h.1.1.1.1.1, h.1.1.1.1.2, h.1.1.1.2, h.1.1.2, h.1.2, h.2⟩

theorem csvSimpleKey_spec {k : Str} (h : csvSimpleKey k = true) :
    k ≠ [] ∧ jsTrim k = k ∧ ',' ∉ k ∧ '\n' ∉ k := by
  unfold csvSimpleKey at h
  simp only [Bool.and_eq_true, Bool.not_eq_true', decide_eq_true_eq,
    decide_eq_false_iff_not] at h
  exact ⟨h.1.1.1, h.1.1.2, h.1.2, h.2⟩

theorem jsToFixedStr_ne_nil (q : ℚ) : jsToFixedStr 4 q ≠ [] := by
  rw [jsToFixedStr_four]
  intro hc
  simp at hc

theorem renderCSV_trim {v : JSValue} (h : csvSimpleValue v = true) :
    jsTrim (renderCSVValue v) = renderCSVValue v := by
  cases v with
  | num q => exact jsTrim_eq_self (jsToFixedStr_no_ws 4 q)
  | str s => exact (csvSimpleString_spec h).2.1
  | null => exact Bool.noConfusion h
  | undefVal => exact Bool.noConfusion h
  | nan => exact Bool.noConfusion h
  | inf b => exact Bool.noConfusion h

theorem renderCSV_no_comma {v : JSValue} (h : csvSimpleValue v = true) :
    ',' ∉ renderCSVValue v := by
  cases v with
  | num q => exact jsToFixedStr_no_char 4 q (by decide) (by decide) (by decide)
  | str s => exact (csvSimpleString_spec h).2.2.1
  | null => exact Bool.noConfusion h
  | undefVal => exact Bool.noConfusion h
  | nan => exact Bool.noConfusion h
  | inf b => exact Bool.noConfusion h

theorem renderCSV_no_newline {v : JSValue} (h : csvSimpleValue v = true) :
    '
' ∉ renderCSVValue v := by
  cases v with
  | num q => exact jsToFixedStr_no_char 4 q (by decide) (by decide) (by decide)
  | str s => exact (csvSimpleString_spec h).2.2.2.1
  | null => exact Bool.noConfusion h
  | undefVal => exact Bool.noConfusion h
  | nan => exact Bool.noConfusion h
  | inf b => exact Bool.noConfusion h

theorem renderCSV_ne_nil {v : JSValue} (h : csvSimpleValue v = true) :
    renderCSVValue v ≠ [] := by
  cases v with
  | num q => exact jsToFixedStr_ne_nil q
  | str s => exact (csvSimpleString_spec h).1
  | null => exact Bool.noConfusion h
  | undefVal => exact Bool.noConfusion h
  | nan => exact Bool.noConfusion h
  | inf b => exact Bool.noConfusion h

theorem infinity_not_prefix_digit {c : Char} (r : Str) (h : isDigitChar c = true) :
    ("Infinity".toList.isPrefixOf (c :: r)) = false := by
  have hne : c ≠ 'I' := digit_ne_of_toNat h (by right; decide)
  have hI : ('I' == c) = false := beq_eq_false_iff_ne.mpr (fun hc => hne hc.symm)
  rw [show "Infinity".toList = 'I' :: "nfinity".toList from rfl]
  simp only [List.isPrefixOf]
  rw [hI]
  simp

theorem hasInfinityPrefix_jsToFixedStr (q : ℚ) :
    hasInfinityPrefix (jsToFixedStr 4 q) = false := by
  rw [jsToFixedStr_four]
  cases hr : renderNat ((jsToFixedInt 4 q).natAbs / 10 ^ 4) with
  | nil => exact absurd hr (renderNat_ne_nil _)
  | cons c t =>
    have hc : isDigitChar c = true := by
      apply renderNat_digits ((jsToFixedInt 4 q).natAbs / 10 ^ 4)
      rw [hr]
      exact List.mem_cons_self c t
    by_cases hneg : jsToFixedInt 4 q < 0
    · rw [if_pos hneg, List.append_assoc, List.singleton_append,
        List.cons_append]
      show ("Infinity".toList.isPrefixOf
        (c :: (t ++ '.' :: renderNatPad 4 ((jsToFixedInt 4 q).natAbs % 10 ^ 4)))) = false
      exact infinity_not_prefix_digit _ hc
    · rw [if_neg hneg, List.nil_append, List.cons_append]
      exact hasInfinityPrefix_cons_digit hc

theorem jsParseFloatVal_simple {s : Str} (h : csvSimpleString s = true) :
    jsParseFloatVal s = .str s := by
  obtain ⟨h1, h2, h3, h4, h5, h6⟩ := csvSimpleString_spec h
  unfold jsParseFloatVal
  rw [if_neg (by rw [h6]; exact Bool.false_ne_true)]
  rw [h5]

theorem jsParseFloatVal_renderCSV {v : JSValue} (h : csvSimpleValue v = true) :
    jsParseFloatVal (renderCSVValue v) = v := by
  cases v with
  | num q =>
    have hden : (q * 10 ^ 4).den = 1 := by
      unfold csvSimpleValue at h
      simp only [Bool.and_eq_true, decide_eq_true_eq] at h
      exact h.1
    show jsParseFloatVal (jsToFixedStr 4 q) = .num q
    unfold jsParseFloatVal
    rw [if_neg (by rw [hasInfinityPrefix_jsToFixedStr]; exact Bool.false_ne_true)]
    rw [jsParseFloat_jsToFixedStr q hden]
  | str s => exact jsParseFloatVal_simple h
  | null => exact Bool.noConfusion h
  | undefVal => exact Bool.noConfusion h
  | nan => exact Bool.noConfusion h
  | inf b => exact Bool.noConfusion h

theorem intercalate_ne_nil (sep : Str) (ls : List Str) (hne : ls ≠ [])
    (h : ∀ l ∈ ls, l ≠ []) : List.intercalate sep ls ≠ [] := by
  cases ls with
  | nil => exact absurd rfl hne
  | cons a t =>
    obtain ⟨R, hR⟩ := intercalate_cons_prefix sep a t
    rw [hR]
    intro hc
    rcases List.append_eq_nil.mp hc with ⟨h1, _⟩
    exact h a (List.mem_cons_self a t) h1

theorem intercalate_head_not_ws (sep : Str) (ls : List Str) (hne : ls ≠ [])
    (h : ∀ l ∈ ls, l ≠ [] ∧ ∀ c ∈ l.head?, isJsWs c = false) :
    ∀ c ∈ (List.intercalate sep ls).head?, isJsWs c = false := by
  cases ls with
  | nil => exact absurd rfl hne
  | cons a t =>
    obtain ⟨R, hR⟩ := intercalate_cons_prefix sep a t
    rw [hR]
    obtain ⟨hane, hah⟩ := h a (List.mem_cons_self a t)
    cases a with
    | nil => exact absurd rfl hane
    | cons c0 t0 =>
      rw [List.cons_append]
      intro c hc
      have hc0 : c0 = c := by simpa using hc
      subst hc0
      exact hah c0 (Option.mem_def.mpr rfl)

theorem intercalate_getLast_not_ws (sep : Str) (ls : List Str) (hne : ls ≠ [])
    (h : ∀ l ∈ ls, l ≠ [] ∧ ∀ c ∈ l.getLast?, isJsWs c = false) :
    ∀ c ∈ (List.intercalate sep ls).getLast?, isJsWs c = false := by
  have hsnoc : ls.dropLast ++ [ls.getLast hne] = ls := List.dropLast_append_getLast hne
  obtain ⟨R, hR⟩ := intercalate_snoc_suffix sep ls.dropLast (ls.getLast hne)
  rw [hsnoc] at hR
  rw [hR]
  obtain ⟨hlne, hll⟩ := h (ls.getLast hne) (List.getLast_mem hne)
  intro c hc
  rw [List.getLast?_append_of_ne_nil R hlne] at hc
  exact hll c hc

theorem parseCSV_rebuild_row (hdrs : List Str) (row : Row)
    (hnd : hdrs.Nodup) (hkeys : rowKeys row = hdrs)
    (hcell : ∀ k ∈ hdrs, csvSimpleValue (rowGet row k) = true) :
    hdrs.enum.foldl (fun r hi =>
      setKey r hi.2
        (((hdrs.map (fun h => renderCSVValue (rowGet row h)))[hi.1]?).elim
          JSValue.undefVal jsParseFloatVal)) [] = row := by
  have hstep : ∀ (r : Row), ∀ hi ∈ hdrs.enum,
      setKey r hi.2
        (((hdrs.map (fun h => renderCSVValue (rowGet row h)))[hi.1]?).elim
          JSValue.undefVal jsParseFloatVal) = setKey r hi.2 (rowGet row hi.2) := by
    intro r hi hmem
    obtain ⟨i, k⟩ := hi
    have hik : hdrs[i]? = some k := List.mk_mem_enum_iff_getElem?.mp hmem
    have hkmem : k ∈ hdrs := List.getElem?_mem hik
    rw [List.getElem?_map, hik, Option.map_some']
    show setKey r k (jsParseFloatVal (renderCSVValue (rowGet row k))) = _
    rw [jsParseFloatVal_renderCSV (hcell k hkmem)]
  have hext := List.foldl_ext _ _ ([] : Row) hstep
  rw [hext]
  have hmap : hdrs.enum.foldl
      (fun (r : Row) (hi : ℕ × Str) => setKey r hi.2 (rowGet row hi.2)) []
      = hdrs.foldl (fun (r : Row) (k : Str) => setKey r k (rowGet row k)) [] := by
    conv_rhs => rw [← List.enum_map_snd hdrs]
    rw [List.foldl_map]
  rw [hmap]
  rw [foldl_setKey_fresh hdrs (fun k => rowGet row k) [] hnd
    (fun k _ => by simp [rowKeys])]
  rw [List.nil_append]
  subst hkeys
  exact map_rowGet_self row hnd

theorem parseCSV_serialize (hdrs : List Str) (T : List Row)
    (hlen : T.length ≤ MAX_DATA_ROWS)
    (hne : hdrs ≠ [])
    (hnd : hdrs.Nodup)
    (hkeyp : ∀ k ∈ hdrs, csvSimpleKey k = true)
    (hkeysr : ∀ r ∈ T, rowKeys r = hdrs)
    (hcell : ∀ r ∈ T, ∀ k ∈ hdrs, csvSimpleValue (rowGet r k) = true) :
    parseCSV (List.intercalate ['
']
      (List.intercalate [','] hdrs ::
        T.map (fun row => List.intercalate [','] (hdrs.map (fun h =>
          renderCSVValue (rowGet row h)))))) = T := by
  have hLfacts : ∀ l ∈ (List.intercalate [','] hdrs ::
      T.map (fun row => List.intercalate [','] (hdrs.map (fun h =>
        renderCSVValue (rowGet row h))))),
      l ≠ [] ∧ (∀ c ∈ l.head?, isJsWs c = false) ∧
        (∀ c ∈ l.getLast?, isJsWs c = false) ∧ '
' ∉ l := by
    intro l hl
    rcases List.mem_cons.mp hl with h1 | h2
    · subst h1
      refine ⟨intercalate_ne_nil _ _ hne ?_, intercalate_head_not_ws _ _ hne ?_,
        intercalate_getLast_not_ws _ _ hne ?_, ?_⟩
      · intro k hk
        exact (csvSimpleKey_spec (hkeyp k hk)).1
      · intro k hk
        obtain ⟨kne, ktrim, _, _⟩ := csvSimpleKey_spec (hkeyp k hk)
        exact ⟨kne, head_not_ws_of_trimmed ktrim⟩
      · intro k hk
        obtain ⟨kne, ktrim, _, _⟩ := csvSimpleKey_spec (hkeyp k hk)
        exact ⟨kne, getLast_not_ws_of_trimmed ktrim⟩
      · intro hnl
        rcases mem_intercalate hnl with hsep | ⟨k, hk, hkc⟩
        · simp at hsep
        · exact (csvSimpleKey_spec (hkeyp k hk)).2.2.2 hkc
    · obtain ⟨r, hr, rfl⟩ := List.mem_map.mp h2
      have hmapne : hdrs.map (fun h => renderCSVValue (rowGet r h)) ≠ [] := by
        intro hc
        exact hne (List.map_eq_nil.mp hc)
      refine ⟨intercalate_ne_nil _ _ hmapne ?_, intercalate_head_not_ws _ _ hmapne ?_,
        intercalate_getLast_not_ws _ _ hmapne ?_, ?_⟩
      · intro cl hcl
        obtain ⟨k, hk, rfl⟩ := List.mem_map.mp hcl
        exact renderCSV_ne_nil (hcell r hr k hk)
      · intro cl hcl
        obtain ⟨k, hk, rfl⟩ := List.mem_map.mp hcl
        exact ⟨renderCSV_ne_nil (hcell r hr k hk),
          head_not_ws_of_trimmed (renderCSV_trim (hcell r hr k hk))⟩
      · intro cl hcl
        obtain ⟨k, hk, rfl⟩ := List.mem_map.mp hcl
        exact ⟨renderCSV_ne_nil (hcell r hr k hk),
          getLast_not_ws_of_trimmed (renderCSV_trim (hcell r hr k hk))⟩
      · intro hnl
        rcases mem_intercalate hnl with hsep | ⟨cl, hcl, hcc⟩
        · simp at hsep
        · obtain ⟨k, hk, rfl⟩ := List.mem_map.mp hcl
          exact renderCSV_no_newline (hcell r hr k hk) hcc
  have hLne2 : (List.intercalate [','] hdrs ::
      T.map (fun row => List.intercalate [','] (hdrs.map (fun h =>
        renderCSVValue (rowGet row h))))) ≠ [] := List.cons_ne_nil _ _
  have htrim : jsTrim (List.intercalate ['
'] (List.intercalate [','] hdrs ::
      T.map (fun row => List.intercalate [','] (hdrs.map (fun h =>
        renderCSVValue (rowGet row h)))))) =
      List.intercalate ['
'] (List.intercalate [','] hdrs ::
      T.map (fun row => List.intercalate [','] (hdrs.map (fun h =>
        renderCSVValue (rowGet row h))))) :=
    jsTrim_eq_self_of_ends
      (intercalate_head_not_ws _ _ hLne2
        (fun l hl => ⟨(hLfacts l hl).1, (hLfacts l hl).2.1⟩))
      (intercalate_getLast_not_ws _ _ hLne2
        (fun l hl => ⟨(hLfacts l hl).1, (hLfacts l hl).2.2.1⟩))
  have hsplit : (List.intercalate ['
'] (List.intercalate [','] hdrs ::
      T.map (fun row => List.intercalate [','] (hdrs.map (fun h =>
        renderCSVValue (rowGet row h)))))).splitOn '
' = (List.intercalate [','] hdrs ::
      T.map (fun row => List.intercalate [','] (hdrs.map (fun h =>
        renderCSVValue (rowGet row h))))) :=
    List.splitOn_intercalate _ '\n' (fun l hl => (hLfacts l hl).2.2.2) hLne2
  have hhdr_split : (List.intercalate [','] hdrs).splitOn ',' = hdrs :=
    List.splitOn_intercalate _ ','
      (fun k hk => (csvSimpleKey_spec (hkeyp k hk)).2.2.1) hne
  have hhdr_trim : hdrs.map jsTrim = hdrs := by
    have h0 : hdrs.map jsTrim = hdrs.map id :=
      List.map_congr_left (fun k hk => (csvSimpleKey_spec (hkeyp k hk)).2.1)
    rw [h0, List.map_id]
  unfold parseCSV
  rw [htrim, hsplit]
  simp only [List.length_cons, List.headD_cons, List.length_map]
  rw [if_neg (by simp)]
  rw [hhdr_split, hhdr_trim]
  have hmin : min (T.length + 1) (MAX_DATA_ROWS + 1) - 1 = T.length := by
    have hle : T.length + 1 ≤ MAX_DATA_ROWS + 1 := by omega
    rw [min_eq_left hle]
    omega
  rw [hmin]
  apply List.ext_getElem
  · simp
  · intro i h1 h2
    rw [List.getElem_map, List.getElem_range]
    have hTi : T[i] ∈ T := List.getElem_mem _
    have hgetline : (List.intercalate [','] hdrs ::
        T.map (fun row => List.intercalate [','] (hdrs.map (fun h =>
          renderCSVValue (rowGet row h))))).getD (i+1) [] =
        List.intercalate [','] (hdrs.map (fun h =>
          renderCSVValue (rowGet (T[i]) h))) := by
      rw [List.getD_cons_succ]
      rw [List.getD_eq_getElem _ _ (by simpa using h2)]
      rw [List.getElem_map]
    rw [hgetline]
    have hcells_split : (List.intercalate [','] (hdrs.map (fun h =>
        renderCSVValue (rowGet (T[i]) h)))).splitOn ',' =
        hdrs.map (fun h => renderCSVValue (rowGet (T[i]) h)) := by
      apply List.splitOn_intercalate
      · intro cl hcl
        obtain ⟨k, hk, rfl⟩ := List.mem_map.mp hcl
        exact renderCSV_no_comma (hcell _ hTi k hk)
      · intro hc
        exact hne (List.map_eq_nil.mp hc)
    rw [hcells_split]
    have hcells_trim : (hdrs.map (fun h =>
        renderCSVValue (rowGet (T[i]) h))).map jsTrim =
        hdrs.map (fun h => renderCSVValue (rowGet (T[i]) h)) := by
      rw [List.map_map]
      exact List.map_congr_left
        (fun k hk => renderCSV_trim (hcell _ hTi k hk))
    rw [hcells_trim]
    exact parseCSV_rebuild_row hdrs (T[i]) hnd (hkeysr _ hTi) (hcell _ hTi)

theorem csv_roundtrip {T : List Row} (hT : csvSimpleTable T) :
    parseCSV (serializeCSV T) = T := by
  rcases hT with hTnil | ⟨hlen, hne, hnd, hkeyp, hrows⟩
  · subst hTnil
    rfl
  · have hTne : T ≠ [] := by
      intro hc
      subst hc
      exact hne rfl
    have hcell : ∀ r ∈ T, ∀ k ∈ rowKeys (T.headD []),
        csvSimpleValue (rowGet r k) = true := by
      intro r hr k hk
      have hk' : k ∈ rowKeys r := by rw [(hrows r hr).1]; exact hk
      obtain ⟨p, hp, hpk, hrg⟩ := rowGet_mem hk'
      rw [hrg]
      exact (hrows r hr).2 p hp
    unfold serializeCSV
    rw [if_neg hTne]
    exact parseCSV_serialize (rowKeys (T.headD [])) T hlen hne hnd hkeyp
      (fun r hr => (hrows r hr).1) hcell

theorem jsonEscapeFree_no_quote {s : Str} (h : jsonEscapeFree s = true) :
    ∀ c ∈ s, ¬(c = '"') := by
  intro c hc
  unfold jsonEscapeFree at h
  rw [List.all_eq_true] at h
  have hch := h c hc
  simp only [Bool.and_eq_true, Bool.not_eq_true', decide_eq_false_iff_not] at hch
  exact hch.1.1

theorem filter_undef_eq_self {row : Row}
    (h : ∀ p ∈ row, jsonSimpleValue p.2 = true) :
    row.filter (fun p => !(decide (p.2 = JSValue.undefVal))) = row := by
  apply List.filter_eq_self.mpr
  intro p hp
  have hs := h p hp
  simp only [Bool.not_eq_true', decide_eq_false_iff_not]
  intro hc
  rw [hc] at hs
  exact Bool.noConfusion hs

theorem jsonRenderRow_simple {row : Row}
    (h : ∀ p ∈ row, jsonSimpleValue p.2 = true) :
    jsonRenderRow row = '{' :: (List.intercalate [','] (row.map (fun p =>
      '"' :: (p.1 ++ '"' :: ':' :: jsonRenderValue p.2))) ++ ['}']) := by
  unfold jsonRenderRow
  rw [filter_undef_eq_self h]

theorem scanJsonString_cons_ne (c : Char) (r : Str) (hc : ¬(c = '"')) :
    scanJsonString (c :: r) =
      (match scanJsonString r with
       | some p => some (c :: p.1, p.2)
       | none => none) := by
  conv_lhs => unfold scanJsonString
  split
  · rename_i heq
    exact absurd heq (List.cons_ne_nil c r)
  · rename_i rest heq
    rw [List.cons_eq_cons] at heq
    exact absurd heq.1 hc
  · rename_i c2 rest hne2 heq
    rw [List.cons_eq_cons] at heq
    obtain ⟨h1, h2⟩ := heq
    subst h1
    subst h2
    rfl

theorem scanJsonString_closed (s : Str) (rest : Str)
    (h : ∀ c ∈ s, ¬(c = '"')) :
    scanJsonString (s ++ '"' :: rest) = some (s, rest) := by
  induction s with
  | nil => rfl
  | cons c t ih =>
    rw [List.cons_append,
      scanJsonString_cons_ne c _ (h c (List.mem_cons_self c t))]
    rw [ih (fun c' hc' => h c' (List.mem_cons_of_mem c hc'))]

theorem parseJsonValue_quote (r : Str) :
    parseJsonValue ('"' :: r) =
      (match scanJsonString r with
       | some p => some (.str p.1, p.2)
       | none => none) := rfl

theorem parseJsonValue_null (r : Str) :
    parseJsonValue ('n' :: 'u' :: 'l' :: 'l' :: r) = some (.null, r) := rfl

theorem parseJsonValue_other (c : Char) (r : Str) (h1 : ¬(c = '"'))
    (h2 : ¬(c = 'n')) :
    parseJsonValue (c :: r) =
      (match parseJsonNumber (c :: r) with
       | some p => some (.num p.1, p.2)
       | none => none) := by
  unfold parseJsonValue
  split
  · rename_i heq
    rw [List.cons_eq_cons] at heq
    exact absurd heq.1 h1
  · rename_i heq
    rw [List.cons_eq_cons] at heq
    exact absurd heq.1 h2
  · rfl

theorem qToDecStr_eq (q : ℚ) :
    qToDecStr q =
      (if jsToFixedInt 4 q < 0 then ['-'] else []) ++
        renderNat ((jsToFixedInt 4 q).natAbs / 10 ^ 4) ++
        (if (jsToFixedInt 4 q).natAbs % 10 ^ 4 = 0 then []
         else '.' :: (stripTrailingZeroVals
           (padDigits 4 ((jsToFixedInt 4 q).natAbs % 10 ^ 4))).map digitChar) := rfl

theorem strip_mem {l : List ℕ} {v : ℕ} (h : v ∈ stripTrailingZeroVals l) :
    v ∈ l := by
  unfold stripTrailingZeroVals at h
  rw [List.mem_reverse] at h
  have h2 : v ∈ l.reverse := (List.dropWhile_sublist _).subset h
  rwa [List.mem_reverse] at h2

theorem strip_digits_lt (fp : ℕ) :
    ∀ v ∈ stripTrailingZeroVals (padDigits 4 fp), v < 10 :=
  fun v hv => padDigits_lt 4 fp v (strip_mem hv)

theorem strip_map_val (fp : ℕ) :
    ((stripTrailingZeroVals (padDigits 4 fp)).map digitChar).map digitVal
      = stripTrailingZeroVals (padDigits 4 fp) := by
  rw [List.map_map]
  have h0 : (stripTrailingZeroVals (padDigits 4 fp)).map (digitVal ∘ digitChar)
      = (stripTrailingZeroVals (padDigits 4 fp)).map id :=
    List.map_congr_left (fun v hv => digitVal_digitChar v (strip_digits_lt fp v hv))
  rw [h0, List.map_id]

theorem strip_all_digits (fp : ℕ) :
    ∀ c ∈ (stripTrailingZeroVals (padDigits 4 fp)).map digitChar,
      isDigitChar c = true := by
  intro c hc
  obtain ⟨v, hv, rfl⟩ := List.mem_map.mp hc
  exact digitChar_isDigit v (strip_digits_lt fp v hv)

theorem strip_ne_nil {fp : ℕ} (h : fp < 10 ^ 4) (hne : fp ≠ 0) :
    stripTrailingZeroVals (padDigits 4 fp) ≠ [] := by
  intro hc
  have h2 : (0:ℚ) = (fp : ℚ) / 10 ^ 4 := by
    rw [← fracVal_padDigits h, ← fracVal_strip, hc]
    rfl
  rw [eq_div_iff (by positivity : ((10:ℚ)^4) ≠ 0)] at h2
  rw [zero_mul] at h2
  exact hne (by exact_mod_cast h2.symm)

theorem strip_val_frac (fp : ℕ) (h : fp < 10 ^ 4) :
    fracVal (((stripTrailingZeroVals (padDigits 4 fp)).map digitChar).map digitVal)
      = (fp : ℚ) / 10 ^ 4 := by
  rw [strip_map_val, fracVal_strip, fracVal_padDigits h]

theorem natAbs_div_frac_strip (m : ℤ) :
    ((digitsToNat ((renderNat (m.natAbs / 10 ^ 4)).map digitVal) : ℚ)
      + fracVal (((stripTrailingZeroVals
          (padDigits 4 (m.natAbs % 10 ^ 4))).map digitChar).map digitVal))
      = (m.natAbs : ℚ) / 10 ^ 4 := by
  have hlt : m.natAbs % 10 ^ 4 < 10 ^ 4 := Nat.mod_lt _ (by norm_num)
  rw [digitsToNat_renderNat_map, strip_val_frac _ hlt]
  have hdm : m.natAbs / 10 ^ 4 * 10 ^ 4 + m.natAbs % 10 ^ 4 = m.natAbs :=
    Nat.div_add_mod' _ _
  rw [eq_div_iff (by positivity : ((10:ℚ)^4) ≠ 0), add_mul,
    div_mul_cancel₀ _ (by positivity : ((10:ℚ)^4) ≠ 0)]
  exact_mod_cast hdm

theorem natAbs_div_exact (m : ℤ) (hfp : m.natAbs % 10 ^ 4 = 0) :
    (digitsToNat ((renderNat (m.natAbs / 10 ^ 4)).map digitVal) : ℚ)
      = (m.natAbs : ℚ) / 10 ^ 4 := by
  rw [digitsToNat_renderNat_map]
  have hdm : m.natAbs / 10 ^ 4 * 10 ^ 4 = m.natAbs := by
    have h0 := Nat.div_add_mod' m.natAbs (10 ^ 4)
    omega
  rw [eq_div_iff (by positivity : ((10:ℚ)^4) ≠ 0)]
  exact_mod_cast hdm

theorem parseNumTail_not_dot (sign : ℚ) (ds : List ℕ) {s : Str}
    (h : ∀ c ∈ s.head?, ¬(c = '.')) :
    parseNumTail sign ds s = some (sign * (digitsToNat ds : ℚ), s) := by
  cases s with
  | nil => rfl
  | cons c0 r0 =>
    have hc0 : ¬(c0 = '.') := h c0 (Option.mem_def.mpr rfl)
    unfold parseNumTail
    split
    · rename_i heq
      rw [List.cons_eq_cons] at heq
      exact absurd heq.1 hc0
    · rfl

theorem parseNumTail_dot (sign : ℚ) (ds : List ℕ) (r : Str) :
    parseNumTail sign ds ('.' :: r) =
      (let fp := takeDigits r
       if fp.1 = [] then none
       else some (sign * ((digitsToNat ds : ℚ) + fracVal fp.1), fp.2)) := rfl

theorem parseJsonNumber_qToDecStr (q : ℚ) (rest : Str)
    (hden : (q * 10 ^ 4).den = 1)
    (hrest1 : ∀ c ∈ rest.head?, isDigitChar c = false)
    (hrest2 : ∀ c ∈ rest.head?, ¬(c = '.')) :
    parseJsonNumber (qToDecStr q ++ rest) = some (q, rest) := by
  have hn : ((jsToFixedInt 4 q : ℤ) : ℚ) = q * 10 ^ 4 := jsToFixedInt_exact 4 q hden
  have hlt4 : (jsToFixedInt 4 q).natAbs % 10 ^ 4 < 10 ^ 4 :=
    Nat.mod_lt _ (by norm_num)
  have hvneg : jsToFixedInt 4 q < 0 →
      ((jsToFixedInt 4 q).natAbs : ℚ) / 10 ^ 4 = -q := by
    intro hneg
    rw [Int.cast_natAbs, abs_of_neg hneg]
    push_cast
    rw [hn]
    field_simp
  have hvpos : ¬jsToFixedInt 4 q < 0 →
      ((jsToFixedInt 4 q).natAbs : ℚ) / 10 ^ 4 = q := by
    intro hneg
    rw [Int.cast_natAbs, abs_of_nonneg (not_lt.mp hneg)]
    push_cast
    rw [hn]
    field_simp
  have hstripne : ¬(jsToFixedInt 4 q).natAbs % 10 ^ 4 = 0 →
      ((stripTrailingZeroVals (padDigits 4
        ((jsToFixedInt 4 q).natAbs % 10 ^ 4))).map digitChar).map digitVal
        ≠ [] := by
    intro hfp hcn
    rw [List.map_eq_nil, List.map_eq_nil] at hcn
    exact strip_ne_nil hlt4 hfp hcn
  have hdotdig : ∀ c2 ∈ (('.' :: (List.map digitChar (stripTrailingZeroVals
      (padDigits 4 ((jsToFixedInt 4 q).natAbs % 10 ^ 4))) ++ rest)).head?),
      isDigitChar c2 = false := by
    intro c2 hcc
    have hc2 : '.' = c2 := by simpa using hcc
    subst hc2
    decide
  rw [qToDecStr_eq]
  by_cases hfp : (jsToFixedInt 4 q).natAbs % 10 ^ 4 = 0
  · rw [if_pos hfp, List.append_nil]
    by_cases hneg : jsToFixedInt 4 q < 0
    · rw [if_pos hneg]
      simp only [List.append_assoc, List.singleton_append, List.cons_append,
        List.nil_append]
      unfold parseJsonNumber
      rw [show splitMinus ('-' ::
          (renderNat ((jsToFixedInt 4 q).natAbs / 10 ^ 4) ++ rest)) =
          (-1, renderNat ((jsToFixedInt 4 q).natAbs / 10 ^ 4) ++ rest) from rfl]
      simp only []
      rw [takeDigits_append _ rest (renderNat_digits _) hrest1]
      dsimp only
      rw [if_neg (renderNat_map_ne_nil _)]
      rw [parseNumTail_not_dot _ _ hrest2]
      have hval : (-1 : ℚ) *
          (digitsToNat ((renderNat ((jsToFixedInt 4 q).natAbs / 10 ^ 4)).map
            digitVal) : ℚ) = q := by
        rw [natAbs_div_exact _ hfp, hvneg hneg]
        ring
      rw [hval]
    · rw [if_neg hneg, List.nil_append]
      cases hr : renderNat ((jsToFixedInt 4 q).natAbs / 10 ^ 4) with
      | nil => exact absurd hr (renderNat_ne_nil _)
      | cons c t =>
        have hc : isDigitChar c = true := by
          apply renderNat_digits ((jsToFixedInt 4 q).natAbs / 10 ^ 4)
          rw [hr]
          exact List.mem_cons_self c t
        rw [List.cons_append]
        unfold parseJsonNumber
        rw [splitMinus_not_minus (digit_ne_of_toNat hc (by left; decide))]
        simp only []
        rw [← List.cons_append, ← hr]
        rw [takeDigits_append _ rest (renderNat_digits _) hrest1]
        dsimp only
        rw [if_neg (renderNat_map_ne_nil _)]
        rw [parseNumTail_not_dot _ _ hrest2]
        have hval : (1 : ℚ) *
            (digitsToNat ((renderNat ((jsToFixedInt 4 q).natAbs / 10 ^ 4)).map
              digitVal) : ℚ) = q := by
          rw [natAbs_div_exact _ hfp, hvpos hneg]
          ring
        rw [hval]
  · rw [if_neg hfp]
    by_cases hneg : jsToFixedInt 4 q < 0
    · rw [if_pos hneg]
      simp only [List.append_assoc, List.singleton_append, List.cons_append,
        List.nil_append]
      unfold parseJsonNumber
      rw [show splitMinus ('-' ::
          (renderNat ((jsToFixedInt 4 q).natAbs / 10 ^ 4) ++ '.' ::
            (List.map digitChar (stripTrailingZeroVals (padDigits 4
              ((jsToFixedInt 4 q).natAbs % 10 ^ 4))) ++ rest))) =
          (-1, renderNat ((jsToFixedInt 4 q).natAbs / 10 ^ 4) ++ '.' ::
            (List.map digitChar (stripTrailingZeroVals (padDigits 4
              ((jsToFixedInt 4 q).natAbs % 10 ^ 4))) ++ rest))
          from rfl]
      simp only []
      rw [takeDigits_append _ ('.' :: _) (renderNat_digits _) hdotdig]
      dsimp only
      rw [if_neg (renderNat_map_ne_nil _)]
      rw [parseNumTail_dot]
      simp only []
      rw [takeDigits_append _ rest (strip_all_digits _) hrest1]
      dsimp only
      rw [if_neg (hstripne hfp)]
      have hval : (-1 : ℚ) *
          ((digitsToNat ((renderNat ((jsToFixedInt 4 q).natAbs / 10 ^ 4)).map
            digitVal) : ℚ) +
          fracVal (((stripTrailingZeroVals (padDigits 4
            ((jsToFixedInt 4 q).natAbs % 10 ^ 4))).map digitChar).map digitVal))
          = q := by
        rw [natAbs_div_frac_strip, hvneg hneg]
        ring
      rw [hval]
    · rw [if_neg hneg, List.nil_append]
      cases hr : renderNat ((jsToFixedInt 4 q).natAbs / 10 ^ 4) with
      | nil => exact absurd hr (renderNat_ne_nil _)
      | cons c t =>
        have hc : isDigitChar c = true := by
          apply renderNat_digits ((jsToFixedInt 4 q).natAbs / 10 ^ 4)
          rw [hr]
          exact List.mem_cons_self c t
        simp only [List.append_assoc, List.cons_append]
        unfold parseJsonNumber
        rw [splitMinus_not_minus (digit_ne_of_toNat hc (by left; decide))]
        simp only []
        rw [← List.cons_append, ← hr]
        rw [takeDigits_append _ ('.' :: _) (renderNat_digits _) hdotdig]
        dsimp only
        rw [if_neg (renderNat_map_ne_nil _)]
        rw [parseNumTail_dot]
        simp only []
        rw [takeDigits_append _ rest (strip_all_digits _) hrest1]
        dsimp only
        rw [if_neg (hstripne hfp)]
        have hval : (1 : ℚ) *
            ((digitsToNat ((renderNat ((jsToFixedInt 4 q).natAbs / 10 ^ 4)).map
              digitVal) : ℚ) +
            fracVal (((stripTrailingZeroVals (padDigits 4
              ((jsToFixedInt 4 q).natAbs % 10 ^ 4))).map digitChar).map digitVal))
            = q := by
          rw [natAbs_div_frac_strip, hvpos hneg]
          ring
        rw [hval]

theorem parseJsonValue_render (v : JSValue) (rest : Str)
    (hv : jsonSimpleValue v = true)
    (hrest1 : ∀ c ∈ rest.head?, isDigitChar c = false)
    (hrest2 : ∀ c ∈ rest.head?, ¬(c = '.')) :
    parseJsonValue (jsonRenderValue v ++ rest) = some (v, rest) := by
  cases v with
  | num q =>
    have hden : (q * 10 ^ 4).den = 1 := by simpa [jsonSimpleValue] using hv
    show parseJsonValue (qToDecStr q ++ rest) = _
    have hsplit : ∃ c X, qToDecStr q ++ rest = c :: X ∧ ¬(c = '"') ∧ ¬(c = 'n') := by
      rw [qToDecStr_eq]
      by_cases hneg : jsToFixedInt 4 q < 0
      · rw [if_pos hneg]
        simp only [List.append_assoc, List.singleton_append, List.cons_append,
          List.nil_append]
        exact ⟨'-', _, rfl, by decide, by decide⟩
      · rw [if_neg hneg, List.nil_append]
        cases hr : renderNat ((jsToFixedInt 4 q).natAbs / 10 ^ 4) with
        | nil => exact absurd hr (renderNat_ne_nil _)
        | cons c t =>
          have hc : isDigitChar c = true := by
            apply renderNat_digits ((jsToFixedInt 4 q).natAbs / 10 ^ 4)
            rw [hr]
            exact List.mem_cons_self c t
          simp only [List.cons_append, List.append_assoc]
          exact ⟨c, _, rfl, digit_ne_of_toNat hc (by left; decide),
            digit_ne_of_toNat hc (by right; decide)⟩
    obtain ⟨c, X, hX, h1, h2⟩ := hsplit
    rw [hX, parseJsonValue_other c X h1 h2, ← hX]
    rw [parseJsonNumber_qToDecStr q rest hden hrest1 hrest2]
  | str s =>
    have hesc : jsonEscapeFree s = true := by simpa [jsonSimpleValue] using hv
    show parseJsonValue (('"' :: (s ++ ['"'])) ++ rest) = _
    rw [List.cons_append, List.append_assoc, List.singleton_append]
    rw [parseJsonValue_quote]
    rw [scanJsonString_closed s rest (jsonEscapeFree_no_quote hesc)]
  | null =>
    exact parseJsonValue_null rest
  | undefVal => exact Bool.noConfusion hv
  | nan => exact Bool.noConfusion hv
  | inf b => exact Bool.noConfusion hv

theorem parseJsonMembers_render (ps : Row) :
    ∀ (rest : Str) (fuel : ℕ), ps.length + 1 ≤ fuel → ps ≠ [] →
    (∀ p ∈ ps, jsonEscapeFree p.1 = true ∧ jsonSimpleValue p.2 = true) →
    parseJsonMembers fuel
      (List.intercalate [','] (ps.map (fun p =>
        '"' :: (p.1 ++ '"' :: ':' :: jsonRenderValue p.2))) ++ '}' :: rest) =
      some (ps, rest) := by
  induction ps with
  | nil =>
    intro rest fuel hf hne hsimp
    exact absurd rfl hne
  | cons p tl ih =>
    intro rest fuel hf hne hsimp
    obtain ⟨f, rfl⟩ : ∃ f, fuel = f + 1 := by
      cases fuel with
      | zero => omega
      | succ f => exact ⟨f, rfl⟩
    have hp := hsimp p (List.mem_cons_self p tl)
    by_cases htl : tl = []
    · subst htl
      simp only [List.map_cons, List.map_nil]
      rw [show List.intercalate [',']
          ['"' :: (p.1 ++ '"' :: ':' :: jsonRenderValue p.2)] =
          '"' :: (p.1 ++ '"' :: ':' :: jsonRenderValue p.2) from by
        simp [List.intercalate, List.intersperse]]
      simp only [List.cons_append, List.append_assoc]
      simp only [parseJsonMembers]
      rw [scanJsonString_closed p.1 _ (jsonEscapeFree_no_quote hp.1)]
      dsimp only
      rw [show parseColonValue (':' :: (jsonRenderValue p.2 ++ '}' :: rest)) =
          parseJsonValue (jsonRenderValue p.2 ++ '}' :: rest) from rfl]
      rw [parseJsonValue_render p.2 ('}' :: rest) hp.2
        (by intro c hcm
            have hcc : '}' = c := by simpa using hcm
            subst hcc
            decide)
        (by intro c hcm
            have hcc : '}' = c := by simpa using hcm
            subst hcc
            decide)]
      dsimp only
      rw [show sepKind ',' '}' ('}' :: rest) = some (false, rest) from rfl]
    · have hmapne : tl.map (fun p =>
          '"' :: (p.1 ++ '"' :: ':' :: jsonRenderValue p.2)) ≠ [] := by
        intro hc
        exact htl (List.map_eq_nil.mp hc)
      simp only [List.map_cons]
      rw [intercalate_cons_of_ne [','] _ hmapne]
      simp only [List.cons_append, List.append_assoc, List.singleton_append,
        List.nil_append]
      simp only [parseJsonMembers]
      rw [scanJsonString_closed p.1 _ (jsonEscapeFree_no_quote hp.1)]
      dsimp only
      rw [show parseColonValue (':' :: (jsonRenderValue p.2 ++ ',' ::
          (List.intercalate [','] (tl.map (fun p =>
            '"' :: (p.1 ++ '"' :: ':' :: jsonRenderValue p.2))) ++ '}' :: rest))) =
          parseJsonValue (jsonRenderValue p.2 ++ ',' ::
          (List.intercalate [','] (tl.map (fun p =>
            '"' :: (p.1 ++ '"' :: ':' :: jsonRenderValue p.2))) ++ '}' :: rest))
          from rfl]
      rw [parseJsonValue_render p.2
        (',' :: (List.intercalate [','] (tl.map (fun p =>
          '"' :: (p.1 ++ '"' :: ':' :: jsonRenderValue p.2))) ++ '}' :: rest))
        hp.2
        (by intro c hcm
            have hcc : ',' = c := by simpa using hcm
            subst hcc
            decide)
        (by intro c hcm
            have hcc : ',' = c := by simpa using hcm
            subst hcc
            decide)]
      dsimp only
      rw [show sepKind ',' '}' (',' :: (List.intercalate [','] (tl.map (fun p =>
          '"' :: (p.1 ++ '"' :: ':' :: jsonRenderValue p.2))) ++ '}' :: rest)) =
          some (true, List.intercalate [','] (tl.map (fun p =>
            '"' :: (p.1 ++ '"' :: ':' :: jsonRenderValue p.2))) ++ '}' :: rest)
          from rfl]
      dsimp only
      rw [ih rest f (by simp only [List.length_cons] at hf; omega) htl
        (fun p2 hp2 => hsimp p2 (List.mem_cons_of_mem p hp2))]

theorem parseBraceTail_not_brace (fuel : ℕ) {c : Char} {r : Str}
    (h : ¬(c = '}')) :
    parseBraceTail fuel (c :: r) = parseJsonMembers fuel (c :: r) := by
  unfold parseBraceTail
  split
  · rename_i heq
    rw [List.cons_eq_cons] at heq
    exact absurd heq.1 h
  · rfl

theorem jsonParseBody_not_bracket (fuel : ℕ) {c : Char} {r : Str}
    (h : ¬(c = ']')) :
    jsonParseBody fuel (c :: r) =
      (match parseJsonRows fuel (c :: r) with
       | some lp => if lp.2 = [] then some lp.1 else none
       | none => none) := by
  unfold jsonParseBody
  split
  · rename_i heq
    rw [List.cons_eq_cons] at heq
    exact absurd heq.1 h
  · rfl

theorem parseJsonRow_render (row : Row) (rest : Str) (fuel : ℕ)
    (hfuel : row.length + 1 ≤ fuel)
    (hsimple : ∀ p ∈ row, jsonEscapeFree p.1 = true ∧ jsonSimpleValue p.2 = true) :
    parseJsonRow fuel (jsonRenderRow row ++ rest) = some (row, rest) := by
  rw [jsonRenderRow_simple (fun p hp => (hsimple p hp).2)]
  rw [List.cons_append]
  rw [show parseJsonRow fuel ('{' :: ((List.intercalate [','] (row.map (fun p =>
      '"' :: (p.1 ++ '"' :: ':' :: jsonRenderValue p.2))) ++ ['}']) ++ rest)) =
      parseBraceTail fuel ((List.intercalate [','] (row.map (fun p =>
      '"' :: (p.1 ++ '"' :: ':' :: jsonRenderValue p.2))) ++ ['}']) ++ rest)
      from rfl]
  cases row with
  | nil =>
    simp only [List.map_nil]
    rw [show List.intercalate [','] ([] : List Str) = [] from rfl]
    simp only [List.nil_append, List.singleton_append]
    rfl
  | cons p tl =>
    have hshape : ∃ X, (List.intercalate [','] ((p :: tl).map (fun p =>
        '"' :: (p.1 ++ '"' :: ':' :: jsonRenderValue p.2))) ++ ['}']) ++ rest =
        '"' :: X := by
      rw [List.map_cons]
      obtain ⟨R, hR⟩ := intercalate_cons_prefix [',']
        ('"' :: (p.1 ++ '"' :: ':' :: jsonRenderValue p.2))
        (tl.map (fun p => '"' :: (p.1 ++ '"' :: ':' :: jsonRenderValue p.2)))
      rw [hR]
      simp only [List.cons_append, List.append_assoc]
      exact ⟨_, rfl⟩
    obtain ⟨X, hX⟩ := hshape
    rw [hX, parseBraceTail_not_brace fuel (by decide), ← hX]
    rw [List.append_assoc, List.singleton_append]
    exact parseJsonMembers_render (p :: tl) rest fuel hfuel
      (List.cons_ne_nil p tl) hsimple

theorem parseJsonRows_render (rows : List Row) :
    ∀ (rest : Str) (fuel : ℕ),
    (rows.map (fun r => r.length + 2)).sum + 1 ≤ fuel → rows ≠ [] →
    (∀ r ∈ rows, ∀ p ∈ r, jsonEscapeFree p.1 = true ∧ jsonSimpleValue p.2 = true) →
    parseJsonRows fuel
      (List.intercalate [','] (rows.map jsonRenderRow) ++ ']' :: rest) =
      some (rows, rest) := by
  induction rows with
  | nil =>
    intro rest fuel hf hne hsimp
    exact absurd rfl hne
  | cons r0 tl ih =>
    intro rest fuel hf hne hsimp
    obtain ⟨f, rfl⟩ : ∃ f, fuel = f + 1 := by
      cases fuel with
      | zero =>
        exfalso
        simp only [List.map_cons, List.sum_cons] at hf
        omega
      | succ f => exact ⟨f, rfl⟩
    have hr0 := hsimp r0 (List.mem_cons_self r0 tl)
    have hf0 : r0.length + 1 ≤ f := by
      simp only [List.map_cons, List.sum_cons] at hf
      omega
    by_cases htl : tl = []
    · subst htl
      simp only [List.map_cons, List.map_nil]
      rw [show List.intercalate [','] [jsonRenderRow r0] = jsonRenderRow r0 from by
        simp [List.intercalate, List.intersperse]]
      simp only [parseJsonRows]
      rw [parseJsonRow_render r0 (']' :: rest) f hf0 hr0]
      dsimp only
      rw [show sepKind ',' ']' (']' :: rest) = some (false, rest) from rfl]
    · have hmapne : tl.map jsonRenderRow ≠ [] := by
        intro hc
        exact htl (List.map_eq_nil.mp hc)
      simp only [List.map_cons]
      rw [intercalate_cons_of_ne [','] _ hmapne]
      simp only [List.append_assoc, List.singleton_append, List.cons_append,
        List.nil_append]
      simp only [parseJsonRows]
      rw [parseJsonRow_render r0
        (',' :: (List.intercalate [','] (tl.map jsonRenderRow) ++ ']' :: rest))
        f hf0 hr0]
      dsimp only
      rw [show sepKind ',' ']'
          (',' :: (List.intercalate [','] (tl.map jsonRenderRow) ++ ']' :: rest)) =
          some (true, List.intercalate [','] (tl.map jsonRenderRow) ++ ']' :: rest)
          from rfl]
      dsimp only
      rw [ih rest f
        (by simp only [List.map_cons, List.sum_cons] at hf; omega) htl
        (fun r2 hr2 => hsimp r2 (List.mem_cons_of_mem r0 hr2))]

theorem length_intercalate_ge {α : Type} (sep : List α) (ls : List (List α)) :
    (ls.map List.length).sum ≤ (List.intercalate sep ls).length := by
  induction ls with
  | nil => simp [List.intercalate, List.intersperse]
  | cons a t ih =>
    cases t with
    | nil => simp [List.intercalate, List.intersperse]
    | cons b t2 =>
      rw [intercalate_cons_of_ne sep a (by simp)]
      simp only [List.length_append, List.map_cons, List.sum_cons]
      have h2 := ih
      simp only [List.map_cons, List.sum_cons] at h2
      omega

theorem sum_length_le_map {α : Type} (l : List α) (f : α → Str)
    (h : ∀ a ∈ l, 1 ≤ (f a).length) :
    l.length ≤ ((l.map f).map List.length).sum := by
  induction l with
  | nil => simp
  | cons a t ih =>
    simp only [List.map_cons, List.sum_cons, List.length_cons]
    have h1 := h a (List.mem_cons_self a t)
    have h2 := ih (fun a2 ha2 => h a2 (List.mem_cons_of_mem _ ha2))
    omega

theorem jsonRenderRow_length_ge {r : Row}
    (h : ∀ p ∈ r, jsonSimpleValue p.2 = true) :
    r.length + 2 ≤ (jsonRenderRow r).length := by
  rw [jsonRenderRow_simple h]
  simp only [List.length_cons, List.length_append, List.length_singleton]
  have h1 := length_intercalate_ge [','] (r.map (fun p =>
    '"' :: (p.1 ++ '"' :: ':' :: jsonRenderValue p.2)))
  have h2 := sum_length_le_map r (fun p =>
    '"' :: (p.1 ++ '"' :: ':' :: jsonRenderValue p.2)) (fun p _ => by simp)
  omega

theorem rows_size_le {rows : List Row}
    (h : ∀ r ∈ rows, ∀ p ∈ r, jsonEscapeFree p.1 = true ∧
      jsonSimpleValue p.2 = true) :
    (rows.map (fun r => r.length + 2)).sum ≤
      (List.intercalate [','] (rows.map jsonRenderRow)).length := by
  have h1 := length_intercalate_ge [','] (rows.map jsonRenderRow)
  have h2 : (rows.map (fun r => r.length + 2)).sum ≤
      ((rows.map jsonRenderRow).map List.length).sum := by
    rw [List.map_map]
    apply List.sum_le_sum
    intro r hr
    exact jsonRenderRow_length_ge (fun p hp => (h r hr p hp).2)
  omega

theorem json_roundtrip {T : List Row} (hT : jsonSimpleTable T) :
    jsonParseTable (jsonStringifyTable T) = some T := by
  cases T with
  | nil => rfl
  | cons r0 tl =>
    have hsimp : ∀ r ∈ r0 :: tl, ∀ p ∈ r, jsonEscapeFree p.1 = true ∧
        jsonSimpleValue p.2 = true := fun r hr => (hT r hr).2
    show jsonParseBody
      ((List.intercalate [','] ((r0 :: tl).map jsonRenderRow) ++ [']']).length + 2)
      (List.intercalate [','] ((r0 :: tl).map jsonRenderRow) ++ [']']) = _
    have hfuel : ((r0 :: tl).map (fun r => r.length + 2)).sum + 1 ≤
        (List.intercalate [','] ((r0 :: tl).map jsonRenderRow) ++ [']']).length
          + 2 := by
      have h1 := rows_size_le hsimp
      simp only [List.length_append, List.length_singleton]
      omega
    have hshape : ∃ X2,
        List.intercalate [','] ((r0 :: tl).map jsonRenderRow) ++ [']'] =
        '{' :: X2 := by
      rw [List.map_cons]
      obtain ⟨R, hR⟩ := intercalate_cons_prefix [','] (jsonRenderRow r0)
        (tl.map jsonRenderRow)
      rw [hR]
      obtain ⟨B, hB⟩ := (⟨_, rfl⟩ : ∃ B, jsonRenderRow r0 = '{' :: B)
      rw [hB]
      simp only [List.cons_append, List.append_assoc]
      exact ⟨_, rfl⟩
    obtain ⟨X2, hX2⟩ := hshape
    rw [hX2, jsonParseBody_not_bracket _ (by decide), ← hX2]
    rw [show List.intercalate [','] ((r0 :: tl).map jsonRenderRow) ++ [']'] =
        List.intercalate [','] ((r0 :: tl).map jsonRenderRow) ++ ']' :: []
        from rfl]
    rw [parseJsonRows_render (r0 :: tl) [] _ hfuel (List.cons_ne_nil r0 tl) hsimp]
    rfl

/-- C9: serialize-then-parse is the identity for both self-contained
formats on their round-trip domains — `parseCSV (serializeCSV T) = T` for
every CSV-simple table (rows share the first row's non-empty duplicate-free
simple field list, each cell a 4-decimal-exact number or a simple string,
table under the `MAX_DATA_ROWS` cap), and
`JSON.parse (JSON.stringify T) = T` for every JSON-simple table
(duplicate-free keys, escape-free key/string characters, 4-decimal-exact
numbers).  The claim's unrestricted version is refuted by
`claim_C9_counterexample`. -/
theorem claim_C9_roundtrip (T : List Row) :
    (csvSimpleTable T →
      parseDataFile (serializeData T DataFormat.csv) DataFormat.csv = some T) ∧
    (jsonSimpleTable T →
      parseDataFile (serializeData T DataFormat.json) DataFormat.json = some T) := by
  constructor
  · intro h
    show some (parseCSV (serializeCSV T)) = some T
    rw [csv_roundtrip h]
  · intro h
    show jsonParseTable (jsonStringifyTable T) = some T
    exact json_roundtrip h

theorem claim_C9_witness :
    parseDataFile (serializeData c9GoodTable DataFormat.csv) DataFormat.csv
      = some c9GoodTable ∧
    parseDataFile (serializeData c9GoodTable DataFormat.json) DataFormat.json
      = some c9GoodTable :=
  ⟨(claim_C9_roundtrip c9GoodTable).1 (by decide),
   (claim_C9_roundtrip c9GoodTable).2 (by decide)⟩

/-- C9 counterexample: the one-cell table `{k: "a,b"}` lies inside the
claim's literal domain — its only value is a string that `parseFloat`
cannot parse — yet CSV serialization followed by parsing does not return
the original table: the unquoted comma inside the string splits the data
line into two cells. -/
theorem claim_C9_counterexample :
    jsParseFloat ['a', ',', 'b'] = none ∧
    parseDataFile (serializeData c9CommaTable DataFormat.csv) DataFormat.csv
      ≠ some c9CommaTable := by
  constructor
  · rfl
  · decide
